import Mathlib

/-!
Verification of the MCBE-Storage-Database repository: a chunked key-value
store layered on a Minecraft Bedrock dynamic-property substrate.

The development shallowly embeds the JavaScript sources:
  - `src/unnamed/part_000` : the `Database` class (canonical copy);
  - `src/unnamed/part_001` : two further copies of `Database` (the first copy
    differs from part_000 by missing input validation and by computing
    chunks with an index loop instead of the accumulating loop);
  - `src/DATABASE.js`      : the `JSONStorage` class.

Modelling conventions:
  - JS strings are Lean `String`s; substrate property ids are `List Char`;
  - JS numbers are `Int` (the sources only ever use integral numbers:
    chunk counts and user scalars);
  - the dynamic-property substrate is an association list from ids to
    values, with `setDynamicProperty id undefined` deleting the entry;
  - `undefined` is `Option.none`; thrown exceptions are `Except.error`;
  - `JSON.stringify` and `JSON.parse` are modelled by an executable
    serializer and parser over the embedded value type.
-/

namespace StorageDB

/-- A JavaScript value as used by the store: number, boolean, string, or a
plain object (a list of key/value fields).  Vectors are objects whose
fields are exactly numeric x, y, z, as tested by `Database._isVector`. -/
inductive JSValue where
  | num (n : Int)
  | bool (b : Bool)
  | str (s : String)
  | obj (fields : List (String × JSValue))

/-- Substrate property id: a JS string, kept as a list of characters. -/
abbrev PropId := List Char

/-- The dynamic-property substrate: an association list of ids to values. -/
abbrev Substrate := List (PropId × JSValue)

/-- `source.getDynamicProperty(id)`: first binding of `id`, else undefined. -/
def sGet : Substrate → PropId → Option JSValue
  | [], _ => none
  | (j, v) :: rest, i => if j = i then some v else sGet rest i

/-- Removal of every binding of `id` (effect of setting it to undefined). -/
def sDel : Substrate → PropId → Substrate
  | [], _ => []
  | (j, v) :: rest, i => if j = i then sDel rest i else (j, v) :: sDel rest i

/-- `source.setDynamicProperty(id, v)`: undefined removes, else rebinds. -/
def sSet (sub : Substrate) (i : PropId) (v : Option JSValue) : Substrate :=
  match v with
  | none => sDel sub i
  | some w => (i, w) :: sDel sub i

/-- `source.getDynamicPropertyIds()`. -/
def sIds (sub : Substrate) : List PropId := sub.map (·.1)

theorem sGet_sDel_self (sub : Substrate) (i : PropId) : sGet (sDel sub i) i = none := by
  induction sub with
  | nil => rfl
  | cons e rest ih =>
    obtain ⟨j, v⟩ := e
    by_cases h : j = i
    · simp [sDel, h, ih]
    · simp [sDel, sGet, h, ih]

theorem sGet_sDel_ne (sub : Substrate) (i j : PropId) (h : j ≠ i) :
    sGet (sDel sub i) j = sGet sub j := by
  induction sub with
  | nil => rfl
  | cons e rest ih =>
    obtain ⟨l, v⟩ := e
    by_cases hl : l = i
    · simp [sDel, sGet, hl, h.symm, ih]
    · by_cases hlj : l = j
      · simp [sDel, sGet, hl, hlj, h]
      · simp [sDel, sGet, hl, hlj, ih]

theorem sGet_sSet_self (sub : Substrate) (i : PropId) (w : JSValue) :
    sGet (sSet sub i (some w)) i = some w := by
  simp [sSet, sGet]

theorem sGet_sSet_ne (sub : Substrate) (i j : PropId) (v : Option JSValue) (h : j ≠ i) :
    sGet (sSet sub i v) j = sGet sub j := by
  match v with
  | none => exact sGet_sDel_ne sub i j h
  | some w =>
    simp only [sSet, sGet]
    rw [if_neg (fun hij => h hij.symm), sGet_sDel_ne sub i j h]

theorem sGet_eq_none_of_not_mem_ids (sub : Substrate) (i : PropId) (h : i ∉ sIds sub) :
    sGet sub i = none := by
  induction sub with
  | nil => rfl
  | cons e rest ih =>
    obtain ⟨j, v⟩ := e
    simp only [sIds, List.map_cons, List.mem_cons] at h
    push_neg at h
    have hji : j ≠ i := fun hji => h.1 hji.symm
    have h2 : i ∉ sIds rest := h.2
    simp [sGet, hji, ih h2]

/-! Decimal printing and parsing of numbers, modelling the JS conversions
`${index}` (template literal) and the number tokens of `JSON.parse`. -/

/-- Accumulates the decimal digits of `n`, least significant digit pushed
first, so the accumulator ends up most significant first.  The fuel is
structural; `fuel = n` is always enough since `n / 10 < n`. -/
def natToCharsAux (fuel : Nat) (n : Nat) (acc : List Char) : List Char :=
  match fuel with
  | 0 => acc
  | f + 1 => if n = 0 then acc else natToCharsAux f (n / 10) (Nat.digitChar (n % 10) :: acc)

/-- Decimal digits of a natural number, most significant first (`"0"` for 0). -/
def natToChars (n : Nat) : List Char :=
  if n = 0 then ['0'] else natToCharsAux n n []

theorem natToCharsAux_eq (fuel n : Nat) (acc : List Char) (h : n ≤ fuel) :
    natToCharsAux fuel n acc = ((Nat.digits 10 n).map Nat.digitChar).reverse ++ acc := by
  induction fuel generalizing n acc with
  | zero =>
    interval_cases n
    simp [natToCharsAux]
  | succ f ih =>
    by_cases hn : n = 0
    · simp [natToCharsAux, hn]
    · have hpos : 0 < n := Nat.pos_of_ne_zero hn
      have hdiv : n / 10 ≤ f := by
        have := Nat.div_lt_self hpos (by norm_num : 1 < 10)
        omega
      rw [natToCharsAux, if_neg hn, ih _ _ hdiv,
        Nat.digits_def' (by norm_num : 1 < 10) hpos]
      simp

theorem natToChars_eq_digits (n : Nat) :
    natToChars n = if n = 0 then ['0'] else ((Nat.digits 10 n).map Nat.digitChar).reverse := by
  by_cases hn : n = 0
  · simp [natToChars, hn]
  · simp [natToChars, hn, natToCharsAux_eq n n [] le_rfl]

/-- JS string form of an (integral) number, with a leading minus sign. -/
def intChars (n : Int) : List Char :=
  if n < 0 then '-' :: natToChars n.natAbs else natToChars n.natAbs

/-- Numeric value of a decimal digit character. -/
def digitVal (c : Char) : Nat := c.toNat - '0'.toNat

/-- Value of a string of decimal digits, most significant first. -/
def parseNatChars (cs : List Char) : Nat := cs.foldl (fun a c => 10 * a + digitVal c) 0

theorem digitVal_digitChar (d : Nat) (h : d < 10) : digitVal (Nat.digitChar d) = d := by
  interval_cases d <;> decide

theorem isDigit_digitChar (d : Nat) (h : d < 10) : (Nat.digitChar d).isDigit = true := by
  interval_cases d <;> decide

theorem foldl_digits (ds : List Nat) (acc : Nat) (h : ∀ d ∈ ds, d < 10) :
    List.foldl (fun a c => 10 * a + digitVal c) acc ((ds.map Nat.digitChar).reverse) =
      acc * 10 ^ ds.length + Nat.ofDigits 10 ds := by
  induction ds generalizing acc with
  | nil => simp
  | cons d rest ih =>
    have hd : d < 10 := h d (List.mem_cons_self d rest)
    have hrest : ∀ x ∈ rest, x < 10 := fun x hx => h x (List.mem_cons_of_mem d hx)
    simp only [List.map_cons, List.reverse_cons, List.foldl_append, List.foldl_cons,
      List.foldl_nil, ih acc hrest, Nat.ofDigits_cons, List.length_cons]
    rw [digitVal_digitChar d hd]
    ring

theorem parseNatChars_natToChars (n : Nat) : parseNatChars (natToChars n) = n := by
  by_cases h : n = 0
  · subst h
    decide
  · have hds : ∀ d ∈ Nat.digits 10 n, d < 10 := fun d hd =>
      Nat.digits_lt_base (by norm_num) hd
    simp only [parseNatChars, natToChars_eq_digits, if_neg h]
    rw [foldl_digits _ 0 hds]
    simp [Nat.ofDigits_digits]

theorem natToChars_inj (m n : Nat) (h : natToChars m = natToChars n) : m = n := by
  have := parseNatChars_natToChars m
  rw [h, parseNatChars_natToChars] at this
  exact this.symm

theorem natToChars_ne_nil (n : Nat) : natToChars n ≠ [] := by
  by_cases h : n = 0
  · simp [natToChars_eq_digits, h]
  · simp [natToChars_eq_digits, h, Nat.digits_ne_nil_iff_ne_zero.mpr h]

theorem natToChars_all_digits (n : Nat) : ∀ c ∈ natToChars n, c.isDigit = true := by
  by_cases h : n = 0
  · simp [natToChars_eq_digits, h]
  · intro c hc
    simp only [natToChars_eq_digits, if_neg h, List.mem_reverse, List.mem_map] at hc
    obtain ⟨d, hd, rfl⟩ := hc
    exact isDigit_digitChar d (Nat.digits_lt_base (by norm_num) hd)

/-! A model of `JSON.stringify` / `JSON.parse` over `JSValue`, executable in
both directions.  The serializer emits the canonical compact form that
`JSON.stringify` produces (no whitespace, fields in object order); the
parser is a recursive-descent reader with an explicit fuel argument that
is always given enough fuel (input length + 1, while every recursion
consumes at least one character). -/

def leftBrace : Char := Char.ofNat 123

def rightBrace : Char := Char.ofNat 125

/-- Lowercase hex digit character for a value below 16, as `JSON.stringify`
writes `\u00XX` escapes. -/
def hexChar (n : Nat) : Char :=
  if n < 10 then Char.ofNat (48 + n) else Char.ofNat (87 + n)

/-- JSON escaping of one character, exactly as `JSON.stringify` writes it:
quote and backslash are backslash-escaped, backspace, tab, line feed, form
feed and carriage return use their named escapes, any other control
character below U+0020 becomes a `\u00XX` escape, and every other
character stands for itself. -/
def escapeChar (c : Char) : List Char :=
  if c = '"' ∨ c = '\\' then ['\\', c]
  else if c = Char.ofNat 8 then ['\\', 'b']
  else if c = Char.ofNat 9 then ['\\', 't']
  else if c = Char.ofNat 10 then ['\\', 'n']
  else if c = Char.ofNat 12 then ['\\', 'f']
  else if c = Char.ofNat 13 then ['\\', 'r']
  else if c.toNat < 32 then
    ['\\', 'u', '0', '0', hexChar (c.toNat / 16), hexChar (c.toNat % 16)]
  else [c]

def escapeChars (cs : List Char) : List Char := (cs.map escapeChar).flatten

/-- A JSON string literal: opening quote, escaped body, closing quote. -/
def strLitChars (s : List Char) : List Char := '"' :: (escapeChars s ++ ['"'])

mutual

/-- `JSON.stringify` of a value, as a character list. -/
def stringifyChars : JSValue → List Char
  | .num n => intChars n
  | .bool b => if b then ['t', 'r', 'u', 'e'] else ['f', 'a', 'l', 's', 'e']
  | .str s => strLitChars s.data
  | .obj fs => leftBrace :: (fieldsChars fs ++ [rightBrace])
termination_by structural v => v

/-- Serialization of the comma-separated field list of an object. -/
def fieldsChars : List (String × JSValue) → List Char
  | [] => []
  | (k, v) :: rest =>
    strLitChars k.data ++ ':' :: stringifyChars v ++
      (match rest with
       | [] => []
       | _ :: _ => ',' :: fieldsChars rest)
termination_by structural fs => fs

end

/-- `JSON.stringify` of a value, as a string. -/
def stringify (v : JSValue) : String := String.mk (stringifyChars v)

/-- The character named by a JSON short escape (`\" \\ \/ \b \f \n \r \t`);
`none` for an invalid escape, which `JSON.parse` rejects. -/
def unescape (c : Char) : Option Char :=
  if c = '"' then some '"'
  else if c = '\\' then some '\\'
  else if c = '/' then some '/'
  else if c = 'b' then some (Char.ofNat 8)
  else if c = 'f' then some (Char.ofNat 12)
  else if c = 'n' then some (Char.ofNat 10)
  else if c = 'r' then some (Char.ofNat 13)
  else if c = 't' then some (Char.ofNat 9)
  else none

/-- Is the character a hexadecimal digit (either case)? -/
def isHex (c : Char) : Bool :=
  c.isDigit || (97 ≤ c.toNat && c.toNat ≤ 102) || (65 ≤ c.toNat && c.toNat ≤ 70)

/-- Numeric value of a hexadecimal digit character. -/
def hexVal (c : Char) : Nat :=
  if c.isDigit then c.toNat - 48
  else if 97 ≤ c.toNat then c.toNat - 87
  else c.toNat - 55

/-- Reads a JSON string body up to the closing quote, undoing escapes with
the string grammar of `JSON.parse`: only the named escapes and `\uXXXX`
with four hex digits are accepted, and an unescaped control character
below U+0020 is a parse error.  (A `\uXXXX` escape goes through
`Char.ofNat`; surrogate code units have no counterpart among the scalar
values the embedding's strings are built from.) -/
def pStr : List Char → Option (List Char × List Char)
  | [] => none
  | c :: rest =>
    if c = '"' then some ([], rest)
    else if c = '\\' then
      match rest with
      | [] => none
      | c2 :: rest2 =>
        if c2 = 'u' then
          match rest2 with
          | h1 :: h2 :: h3 :: h4 :: rest3 =>
            if isHex h1 && isHex h2 && isHex h3 && isHex h4 then
              match pStr rest3 with
              | some (s, r) =>
                some (Char.ofNat
                  (((hexVal h1 * 16 + hexVal h2) * 16 + hexVal h3) * 16 + hexVal h4) :: s, r)
              | none => none
            else none
          | _ => none
        else
          match unescape c2 with
          | some c3 =>
            (match pStr rest2 with
             | some (s, r) => some (c3 :: s, r)
             | none => none)
          | none => none
    else if c.toNat < 32 then none
    else
      (match pStr rest with
       | some (s, r) => some (c :: s, r)
       | none => none)

/-- Combines the input after an opening brace with the result of the field
parser on that input: an immediate closing brace is the empty object,
otherwise the field-parser result is wrapped as an object. -/
def pObjResult : List Char → Option (List (String × JSValue) × List Char) →
    Option (JSValue × List Char)
  | [], _ => none
  | d :: rest2, pf =>
    if d = rightBrace then some (.obj [], rest2)
    else
      match pf with
      | some (fs, r) => some (.obj fs, r)
      | none => none

/-- Reads an integer after a minus sign: a single `0`, or a nonzero digit
followed by digits, negated (the leading-zero restriction of the JSON
number grammar). -/
def pNeg : List Char → Option (JSValue × List Char)
  | [] => none
  | d :: rest2 =>
    if d = '0' then some (.num 0, rest2)
    else if d.isDigit then
      some (.num (-(parseNatChars ((d :: rest2).takeWhile Char.isDigit) : Int)),
        (d :: rest2).dropWhile Char.isDigit)
    else none

mutual

/-- Reads one JSON value of the fragment representable as a `JSValue`:
strings, integer numbers (with the leading-zero restriction of the JSON
number grammar), `true`/`false` and objects.  `null`, arrays and numbers
with a fraction or exponent have no `JSValue` counterpart; the full
acceptor `jsonAccepts` below decides whether `JSON.parse` itself would
succeed, and `jsonAccepts_of_jsonParse` relates the two.  The fuel only
bounds the nesting of recursive calls; each recursive call consumes at
least one input character, so fuel `length + 1` never runs out. -/
def pVal : Nat → List Char → Option (JSValue × List Char)
  | 0, _ => none
  | _ + 1, [] => none
  | fuel + 1, c :: rest =>
    if c = '"' then
      match pStr rest with
      | some (s, r) => some (.str (String.mk s), r)
      | none => none
    else if c = 't' then
      if ['r', 'u', 'e'].isPrefixOf rest then some (.bool true, rest.drop 3) else none
    else if c = 'f' then
      if ['a', 'l', 's', 'e'].isPrefixOf rest then some (.bool false, rest.drop 4) else none
    else if c = '-' then pNeg rest
    else if c = '0' then some (.num 0, rest)
    else if c.isDigit then
      some (.num (parseNatChars ((c :: rest).takeWhile Char.isDigit) : Int),
        (c :: rest).dropWhile Char.isDigit)
    else if c = leftBrace then pObjResult rest (pFields fuel rest)
    else none

/-- Reads a non-empty field list followed by the closing brace. -/
def pFields : Nat → List Char → Option (List (String × JSValue) × List Char)
  | 0, _ => none
  | _ + 1, [] => none
  | fuel + 1, c :: rest =>
    if c = '"' then
      match pStr rest with
      | some (k, r1) =>
        (match r1 with
         | [] => none
         | c1 :: r2 =>
           if c1 = ':' then
             match pVal fuel r2 with
             | some (v, r3) =>
               (match r3 with
                | [] => none
                | d :: r4 =>
                  if d = ',' then
                    match pFields fuel r4 with
                    | some (fs, r5) => some ((String.mk k, v) :: fs, r5)
                    | none => none
                  else if d = rightBrace then some ([(String.mk k, v)], r4)
                  else none)
             | none => none
           else none)
      | none => none
    else none

end

/-- `JSON.parse`: parse the whole string as one JSON value; any parse error
(including trailing input) is a thrown exception, modelled as `none`. -/
def jsonParse (s : String) : Option JSValue :=
  match pVal (s.data.length + 1) s.data with
  | some (v, []) => some v
  | _ => none

/-! A spec-modelled acceptor for the host builtin `JSON.parse`, whose code
is not part of the repository: `jsonAccepts s` decides whether
`JSON.parse(s)` succeeds, over the full JSON grammar — optional
whitespace around tokens, `null`, arrays, and numbers with fraction and
exponent parts, none of which the `JSValue` fragment above can represent.
`jsonAccepts_of_jsonParse` below proves the fragment parser sound against
it: whatever `jsonParse` accepts, `JSON.parse` accepts. -/

/-- JSON whitespace: `JSON.parse` skips exactly space, tab, line feed and
carriage return. -/
def isJsonWs (c : Char) : Bool :=
  c = ' ' || c = Char.ofNat 9 || c = Char.ofNat 10 || c = Char.ofNat 13

/-- Drops leading JSON whitespace. -/
def skipWs (cs : List Char) : List Char := cs.dropWhile isJsonWs

/-- Consumes the optional exponent part of a JSON number (`e`/`E`, an
optional sign, one or more digits). -/
def jExp (cs : List Char) : Option (List Char) :=
  match cs with
  | [] => some []
  | c :: rest =>
    if c = 'e' ∨ c = 'E' then
      match rest with
      | [] => none
      | d :: rest2 =>
        if d = '+' ∨ d = '-' then
          if (rest2.takeWhile Char.isDigit).isEmpty then none
          else some (rest2.dropWhile Char.isDigit)
        else if (rest.takeWhile Char.isDigit).isEmpty then none
        else some (rest.dropWhile Char.isDigit)
    else some (c :: rest)

/-- Consumes the optional fraction part (`.` and one or more digits) and
then the optional exponent part of a JSON number. -/
def jFracExp (cs : List Char) : Option (List Char) :=
  match cs with
  | [] => some []
  | c :: rest =>
    if c = '.' then
      if (rest.takeWhile Char.isDigit).isEmpty then none
      else jExp (rest.dropWhile Char.isDigit)
    else jExp (c :: rest)

/-- Consumes a JSON number after the optional minus sign: the integer part
is a single `0` or a nonzero digit followed by digits, then fraction and
exponent. -/
def jNumBody (cs : List Char) : Option (List Char) :=
  match cs with
  | [] => none
  | d :: rest =>
    if d = '0' then jFracExp rest
    else if d.isDigit then jFracExp ((d :: rest).dropWhile Char.isDigit)
    else none

mutual

/-- Remainder of the input after one JSON value, over the full grammar of
`JSON.parse`; `none` is a parse error.  The fuel only bounds nesting and
`length + 1` never runs out: every two consecutive fuel decrements consume
at least one input character. -/
def jVal : Nat → List Char → Option (List Char)
  | 0, _ => none
  | _ + 1, [] => none
  | fuel + 1, c :: rest =>
    if c = '"' then
      match pStr rest with
      | some (_, r) => some r
      | none => none
    else if c = 't' then
      if ['r', 'u', 'e'].isPrefixOf rest then some (rest.drop 3) else none
    else if c = 'f' then
      if ['a', 'l', 's', 'e'].isPrefixOf rest then some (rest.drop 4) else none
    else if c = 'n' then
      if ['u', 'l', 'l'].isPrefixOf rest then some (rest.drop 3) else none
    else if c = '-' then jNumBody rest
    else if c.isDigit then jNumBody (c :: rest)
    else if c = leftBrace then
      match skipWs rest with
      | [] => none
      | d :: r2 => if d = rightBrace then some r2 else jMembers fuel (d :: r2)
    else if c = '[' then
      match skipWs rest with
      | [] => none
      | d :: r2 => if d = ']' then some r2 else jElems fuel (d :: r2)
    else none

/-- Remainder after a non-empty object member list and its closing brace:
a string key, optional whitespace, a colon, a value with whitespace on
both sides, then a comma and further members or the closing brace. -/
def jMembers : Nat → List Char → Option (List Char)
  | 0, _ => none
  | _ + 1, [] => none
  | fuel + 1, c :: rest =>
    if c = '"' then
      match pStr rest with
      | some (_, r1) =>
        (match skipWs r1 with
         | [] => none
         | c1 :: r2 =>
           if c1 = ':' then
             match jVal fuel (skipWs r2) with
             | some r3 =>
               (match skipWs r3 with
                | [] => none
                | d :: r4 =>
                  if d = ',' then jMembers fuel (skipWs r4)
                  else if d = rightBrace then some r4
                  else none)
             | none => none
           else none)
      | none => none
    else none

/-- Remainder after a non-empty array element list and its closing
bracket. -/
def jElems : Nat → List Char → Option (List Char)
  | 0, _ => none
  | fuel + 1, cs =>
    match jVal fuel cs with
    | some r =>
      (match skipWs r with
       | [] => none
       | d :: r2 =>
         if d = ',' then jElems fuel (skipWs r2)
         else if d = ']' then some r2
         else none)
    | none => none

end

/-- Does `JSON.parse` accept the string?  Optional whitespace around a
single JSON value that must consume the whole input. -/
def jsonAccepts (s : String) : Bool :=
  match jVal (s.data.length + 1) (skipWs s.data) with
  | some r => (skipWs r).isEmpty
  | none => false

/-! Correctness of the parser on serializer output: `JSON.parse` recovers
exactly the value that `JSON.stringify` wrote. -/

/-- The first character of `rest` (if any) does not satisfy `p`. -/
def headNot (p : Char → Bool) : List Char → Prop
  | [] => True
  | c :: _ => p c = false

theorem takeWhile_append_all (p : Char → Bool) (l r : List Char)
    (hl : ∀ c ∈ l, p c = true) (hr : headNot p r) :
    (l ++ r).takeWhile p = l ∧ (l ++ r).dropWhile p = r := by
  induction l with
  | nil =>
    match r with
    | [] => simp
    | c :: r2 => simp_all [List.takeWhile, List.dropWhile, headNot]
  | cons c l2 ih =>
    have hc : p c = true := hl c (List.mem_cons_self c l2)
    have hl2 : ∀ x ∈ l2, p x = true := fun x hx => hl x (List.mem_cons_of_mem c hx)
    obtain ⟨h1, h2⟩ := ih hl2
    simp [List.takeWhile, List.dropWhile, hc, h1, h2]

theorem ne_of_isDigit (c d : Char) (h : c.isDigit = true) (hd : d.isDigit = false) : c ≠ d := by
  intro hcd
  rw [hcd, hd] at h
  cases h

theorem isHex_hexChar (n : Nat) (h : n < 16) : isHex (hexChar n) = true := by
  interval_cases n <;> decide

theorem hexVal_hexChar (n : Nat) (h : n < 16) : hexVal (hexChar n) = n := by
  interval_cases n <;> decide

theorem charOfNat_toNat (c : Char) : Char.ofNat c.toNat = c := by
  have hv : c.toNat.isValidChar := c.valid
  rw [Char.ofNat, dif_pos hv]
  apply Char.ext
  rfl

theorem escapeChars_cons (c : Char) (s : List Char) :
    escapeChars (c :: s) = escapeChar c ++ escapeChars s := by
  simp [escapeChars]

theorem pStr_escape (s rest : List Char) :
    pStr (escapeChars s ++ '"' :: rest) = some (s, rest) := by
  induction s with
  | nil =>
    rw [show escapeChars [] = [] from rfl, List.nil_append, pStr.eq_def]
    rfl
  | cons c s2 ih =>
    rw [escapeChars_cons, List.append_assoc]
    by_cases hc : c = '"' ∨ c = '\\'
    · have he : escapeChar c = ['\\', c] := by simp [escapeChar, hc]
      rw [he, List.cons_append, List.cons_append, List.nil_append, pStr.eq_def]
      rcases hc with rfl | rfl <;> simp [unescape, ih]
    · push_neg at hc
      by_cases h8 : c = Char.ofNat 8
      · subst h8
        rw [show escapeChar (Char.ofNat 8) = ['\\', 'b'] from by decide,
          List.cons_append, List.cons_append, List.nil_append, pStr.eq_def]
        simp [unescape, ih]
      by_cases h9 : c = Char.ofNat 9
      · subst h9
        rw [show escapeChar (Char.ofNat 9) = ['\\', 't'] from by decide,
          List.cons_append, List.cons_append, List.nil_append, pStr.eq_def]
        simp [unescape, ih]
      by_cases h10 : c = Char.ofNat 10
      · subst h10
        rw [show escapeChar (Char.ofNat 10) = ['\\', 'n'] from by decide,
          List.cons_append, List.cons_append, List.nil_append, pStr.eq_def]
        simp [unescape, ih]
      by_cases h12 : c = Char.ofNat 12
      · subst h12
        rw [show escapeChar (Char.ofNat 12) = ['\\', 'f'] from by decide,
          List.cons_append, List.cons_append, List.nil_append, pStr.eq_def]
        simp [unescape, ih]
      by_cases h13 : c = Char.ofNat 13
      · subst h13
        rw [show escapeChar (Char.ofNat 13) = ['\\', 'r'] from by decide,
          List.cons_append, List.cons_append, List.nil_append, pStr.eq_def]
        simp [unescape, ih]
      by_cases hctl : c.toNat < 32
      · have he : escapeChar c =
            ['\\', 'u', '0', '0', hexChar (c.toNat / 16), hexChar (c.toNat % 16)] := by
          simp [escapeChar, hc.1, hc.2, h8, h9, h10, h12, h13, hctl]
        have hdiv : c.toNat / 16 < 16 := by omega
        have hmod : c.toNat % 16 < 16 := by omega
        rw [he]
        simp only [List.cons_append, List.nil_append]
        rw [pStr.eq_def]
        simp only [show ('\\' : Char) ≠ '"' from by decide, if_neg, if_pos rfl, reduceIte,
          if_pos (show ('u' : Char) = 'u' from rfl)]
        rw [if_pos (by
          simp only [isHex_hexChar _ hdiv, isHex_hexChar _ hmod, Bool.and_true]
          decide)]
        rw [ih]
        have hval : ((hexVal '0' * 16 + hexVal '0') * 16 + hexVal (hexChar (c.toNat / 16))) * 16
            + hexVal (hexChar (c.toNat % 16)) = c.toNat := by
          rw [hexVal_hexChar _ hdiv, hexVal_hexChar _ hmod,
            show hexVal '0' = 0 from by decide]
          omega
        rw [hval, charOfNat_toNat]
      · have he : escapeChar c = [c] := by
          simp [escapeChar, hc.1, hc.2, h8, h9, h10, h12, h13, hctl]
        rw [he, List.singleton_append, pStr.eq_def]
        simp [hc.1, hc.2, hctl, ih]

theorem strLitChars_length (s : List Char) :
    (strLitChars s).length = (escapeChars s).length + 2 := by
  simp [strLitChars]

theorem stringifyChars_length_pos (v : JSValue) : 0 < (stringifyChars v).length := by
  match v with
  | .num n =>
    simp only [stringifyChars, intChars]
    by_cases h : n < 0
    · simp [h]
    · simp only [if_neg h]
      exact List.length_pos.mpr (natToChars_ne_nil _)
  | .bool b => cases b <;> simp [stringifyChars]
  | .str s => simp [stringifyChars, strLitChars]
  | .obj fs => simp [stringifyChars]

theorem natToChars_head_ne_zero (n : Nat) (hn : n ≠ 0) (c : Char) (cs : List Char)
    (h : natToChars n = c :: cs) : c ≠ '0' := by
  rw [natToChars_eq_digits, if_neg hn] at h
  have hne : Nat.digits 10 n ≠ [] := Nat.digits_ne_nil_iff_ne_zero.mpr hn
  have hh : ((Nat.digits 10 n).map Nat.digitChar).reverse.head? = some c := by rw [h]; rfl
  rw [List.head?_reverse, List.getLast?_map] at hh
  cases hlast : (Nat.digits 10 n).getLast? with
  | none => rw [hlast] at hh; cases hh
  | some d =>
    rw [hlast] at hh
    have hdc : Nat.digitChar d = c := by simpa using hh
    have hdeq : d = (Nat.digits 10 n).getLast hne := by
      have := List.getLast?_eq_getLast (Nat.digits 10 n) hne
      rw [this] at hlast
      exact (Option.some.injEq _ _).mp hlast.symm
    have hd0 : d ≠ 0 := by
      rw [hdeq]
      exact Nat.getLast_digit_ne_zero 10 hn
    have hdlt : d < 10 := by
      have hmem : d ∈ Nat.digits 10 n := by
        rw [hdeq]
        exact List.getLast_mem hne
      exact Nat.digits_lt_base (by norm_num) hmem
    intro hc0
    rw [hc0] at hdc
    have h1 : 1 ≤ d := Nat.one_le_iff_ne_zero.mpr hd0
    clear hdeq hlast hh h hd0
    interval_cases d <;> exact absurd hdc (by decide)

theorem pVal_num (f : Nat) (n : Int) (rest : List Char) (hrest : headNot Char.isDigit rest) :
    pVal (f + 1) (intChars n ++ rest) = some (.num n, rest) := by
  rcases eq_or_ne n 0 with rfl | hn0
  · rw [show intChars 0 = ['0'] from rfl, List.singleton_append, pVal.eq_def]
    simp only [show ¬(('0' : Char) = '"') from by decide,
      show ¬(('0' : Char) = 't') from by decide, show ¬(('0' : Char) = 'f') from by decide,
      show ¬(('0' : Char) = '-') from by decide, ite_false, ite_true, if_false, if_true,
      reduceIte]
  obtain ⟨c, cs, hcs⟩ : ∃ c cs, natToChars n.natAbs = c :: cs := by
    match h : natToChars n.natAbs with
    | [] => exact absurd h (natToChars_ne_nil _)
    | c :: cs => exact ⟨c, cs, rfl⟩
  have habs : n.natAbs ≠ 0 := by omega
  have hc0 : c ≠ '0' := natToChars_head_ne_zero n.natAbs habs c cs hcs
  have hdigs := natToChars_all_digits n.natAbs
  rw [hcs] at hdigs
  have hcdig : c.isDigit = true := hdigs c (List.mem_cons_self c cs)
  have htw := takeWhile_append_all Char.isDigit (c :: cs) rest hdigs hrest
  simp only [List.cons_append] at htw
  have hp : parseNatChars (c :: cs) = n.natAbs := by
    rw [← hcs]
    exact parseNatChars_natToChars _
  rcases Int.le_or_lt 0 n with hn | hn
  · have hform : intChars n = natToChars n.natAbs := by
      simp [intChars, Int.not_lt.mpr hn]
    rw [hform, hcs, List.cons_append, pVal.eq_def]
    simp only [ne_of_isDigit c '"' hcdig (by decide), ne_of_isDigit c 't' hcdig (by decide),
      ne_of_isDigit c 'f' hcdig (by decide), ne_of_isDigit c '-' hcdig (by decide), hc0,
      hcdig, if_false, if_true, ite_false, ite_true]
    rw [htw.1, htw.2, hp, Int.natAbs_of_nonneg hn]
  · have hform : intChars n = '-' :: natToChars n.natAbs := by
      simp [intChars, hn]
    rw [hform, hcs, List.cons_append, List.cons_append, pVal.eq_def]
    simp only [show ¬(('-' : Char) = '"') from by decide,
      show ¬(('-' : Char) = 't') from by decide, show ¬(('-' : Char) = 'f') from by decide,
      ite_false, ite_true, if_false, if_true, reduceIte]
    rw [show pNeg (c :: (cs ++ rest)) =
        (if c = '0' then some (.num 0, cs ++ rest)
         else if c.isDigit then
           some (.num (-(parseNatChars ((c :: (cs ++ rest)).takeWhile Char.isDigit) : Int)),
             (c :: (cs ++ rest)).dropWhile Char.isDigit)
         else none) from rfl]
    simp only [hc0, hcdig, if_false, ite_false, if_true, ite_true, reduceIte]
    rw [htw.1, htw.2]
    simp only [hp]
    have hm : -(n.natAbs : Int) = n := by omega
    rw [hm]

theorem fieldsChars_cons_eq (k : String) (v : JSValue) (fs : List (String × JSValue)) :
    fieldsChars ((k, v) :: fs) =
      '"' :: ((escapeChars k.data ++ ['"']) ++ ':' :: stringifyChars v ++
        (if fs.isEmpty then [] else ',' :: fieldsChars fs)) := by
  rcases fs with _ | ⟨⟨k2, v2⟩, fs2⟩
  · rfl
  · rfl

theorem pVal_pFields_stringify (fuel : Nat) :
    (∀ (v : JSValue) (rest : List Char), (stringifyChars v).length ≤ fuel →
      headNot Char.isDigit rest →
      pVal fuel (stringifyChars v ++ rest) = some (v, rest)) ∧
    (∀ (k : String) (v : JSValue) (fs : List (String × JSValue)) (rest : List Char),
      (fieldsChars ((k, v) :: fs)).length + 1 ≤ fuel →
      pFields fuel (fieldsChars ((k, v) :: fs) ++ rightBrace :: rest) =
        some ((k, v) :: fs, rest)) := by
  induction fuel with
  | zero =>
    constructor
    · intro v rest hlen _
      have := stringifyChars_length_pos v
      omega
    · intro k v fs rest hlen
      omega
  | succ f ih =>
    constructor
    · intro v rest hlen hrest
      rcases v with n | b | s | fs
      · exact pVal_num f n rest hrest
      · rcases b with _ | _
        · rw [show stringifyChars (.bool false) = ['f', 'a', 'l', 's', 'e'] from rfl,
            List.cons_append, List.cons_append, List.cons_append, List.cons_append,
            List.cons_append, pVal.eq_def]
          simp [List.isPrefixOf]
        · rw [show stringifyChars (.bool true) = ['t', 'r', 'u', 'e'] from rfl,
            List.cons_append, List.cons_append, List.cons_append, List.cons_append,
            pVal.eq_def]
          simp [List.isPrefixOf]
      · rw [show stringifyChars (.str s) = '"' :: (escapeChars s.data ++ ['"']) from rfl,
          List.cons_append, List.append_assoc, List.singleton_append, pVal.eq_def]
        simp [pStr_escape]
      · rw [show stringifyChars (.obj fs) = leftBrace :: (fieldsChars fs ++ [rightBrace])
            from rfl, List.cons_append, List.append_assoc, List.singleton_append,
          pVal.eq_def]
        have hlb1 : leftBrace ≠ '"' := by decide
        have hlb2 : leftBrace ≠ 't' := by decide
        have hlb3 : leftBrace ≠ 'f' := by decide
        have hlb4 : leftBrace ≠ '-' := by decide
        have hlb5 : leftBrace.isDigit = false := by decide
        have hlb6 : leftBrace ≠ '0' := by decide
        simp only [hlb1, hlb2, hlb3, hlb4, hlb5, hlb6, if_false, ite_false,
          Bool.false_eq_true, reduceIte, if_pos rfl]
        rcases fs with _ | ⟨⟨k, v⟩, fs2⟩
        · rw [show fieldsChars [] = [] from rfl, List.nil_append]
          simp [pObjResult]
        · have hfl : (fieldsChars ((k, v) :: fs2)).length + 1 ≤ f := by
            have hob : (stringifyChars (.obj ((k, v) :: fs2))).length =
                (fieldsChars ((k, v) :: fs2)).length + 2 := by
              rw [show stringifyChars (.obj ((k, v) :: fs2)) =
                leftBrace :: (fieldsChars ((k, v) :: fs2) ++ [rightBrace]) from rfl]
              simp
            omega
          have hB := ih.2 k v fs2 rest hfl
          rw [fieldsChars_cons_eq] at hB ⊢
          rw [List.cons_append]
          have hq : ('"' : Char) ≠ rightBrace := by decide
          simp only [pObjResult, hq, if_false, ite_false, reduceIte]
          simp only [List.cons_append, List.append_assoc] at hB ⊢
          rw [hB]
    · intro k v fs rest hlen
      rw [fieldsChars_cons_eq] at hlen ⊢
      have hlen2 : (stringifyChars v).length ≤ f := by
        simp only [List.length_cons, List.length_append] at hlen
        omega
      rw [List.cons_append, pFields.eq_def]
      simp only [if_pos rfl, reduceIte]
      simp only [List.append_assoc, List.singleton_append, List.cons_append]
      rw [pStr_escape]
      simp only [List.nil_append]
      rcases fs with _ | ⟨⟨k2, v2⟩, fs2⟩
      · have hA := ih.1 v (rightBrace :: rest) hlen2
          (by show rightBrace.isDigit = false; decide)
        simp only [List.isEmpty_nil, if_true, List.nil_append, List.append_nil]
        simp only [hA]
        have hc1 : rightBrace ≠ ',' := by decide
        simp [hc1]
      · have hfl2 : (fieldsChars ((k2, v2) :: fs2)).length + 1 ≤ f := by
          simp only [List.length_cons, List.length_append, List.isEmpty_cons,
            if_false, Bool.false_eq_true, reduceIte] at hlen
          omega
        have hB := ih.2 k2 v2 fs2 rest hfl2
        simp only [List.isEmpty_cons, if_false, Bool.false_eq_true, reduceIte]
        have hA := ih.1 v (',' :: (fieldsChars ((k2, v2) :: fs2) ++ rightBrace :: rest))
          hlen2 (by show (',' : Char).isDigit = false; decide)
        simp only [List.cons_append, List.append_assoc] at hA ⊢
        rw [hA]
        simp [hB]

/-- `JSON.parse` inverts `JSON.stringify` on every embedded value. -/
theorem jsonParse_stringify (v : JSValue) : jsonParse (stringify v) = some v := by
  have h := (pVal_pFields_stringify ((stringifyChars v).length + 1)).1 v []
    (by omega) trivial
  rw [List.append_nil] at h
  simp [jsonParse, stringify, h]

/-! Soundness of the fragment parser against the full acceptor: every
string `jsonParse` accepts is accepted by `JSON.parse` (modelled by
`jsonAccepts`), so `jsonAccepts s = false` implies `jsonParse s = none`
and both parsers report a parse error on `s`. -/

/-- Characters that would extend a JSON number past its integer part. -/
def numCont (c : Char) : Bool := c = '.' || c = 'e' || c = 'E'

theorem jExp_of_headNot (cs : List Char) (h : headNot numCont cs) : jExp cs = some cs := by
  cases cs with
  | nil => rfl
  | cons c r =>
    have h' : numCont c = false := h
    simp only [numCont, Bool.or_eq_false_iff, decide_eq_false_iff_not] at h'
    simp [jExp, h'.1.2, h'.2]

theorem jFracExp_of_headNot (cs : List Char) (h : headNot numCont cs) :
    jFracExp cs = some cs := by
  cases cs with
  | nil => rfl
  | cons c r =>
    have h' : numCont c = false := h
    have hdot : ¬c = '.' := by
      simp only [numCont, Bool.or_eq_false_iff, decide_eq_false_iff_not] at h'
      exact h'.1.1
    simp only [jFracExp, if_neg hdot]
    exact jExp_of_headNot (c :: r) h

/-- Can a character start a value of the `JSValue` fragment parser? -/
def headStartsVal (c : Char) : Bool :=
  c = '"' || c = 't' || c = 'f' || c = '-' || c = '0' || c.isDigit || c = leftBrace

theorem pVal_none_of_not_start (f : Nat) (c : Char) (rest : List Char)
    (h : headStartsVal c = false) : pVal (f + 1) (c :: rest) = none := by
  simp only [headStartsVal, Bool.or_eq_false_iff, decide_eq_false_iff_not] at h
  obtain ⟨⟨⟨⟨⟨⟨h1, h2⟩, h3⟩, h4⟩, h5⟩, h6⟩, h7⟩ := h
  rw [pVal.eq_def]
  simp [h1, h2, h3, h4, h5, h6, h7]

theorem not_start_of_ws (c : Char) (h : isJsonWs c = true) : headStartsVal c = false := by
  simp only [isJsonWs, Bool.or_eq_true, decide_eq_true_eq] at h
  rcases h with ((rfl | rfl) | rfl) | rfl <;> decide

theorem skipWs_cons_of_not_ws (c : Char) (r : List Char) (h : isJsonWs c = false) :
    skipWs (c :: r) = c :: r := by
  simp [skipWs, List.dropWhile_cons, h]

theorem skipWs_eq_of_pVal (f : Nat) (cs : List Char) (x : JSValue × List Char)
    (h : pVal f cs = some x) : skipWs cs = cs := by
  match f, cs with
  | 0, cs => simp [pVal] at h
  | f + 1, [] => rfl
  | f + 1, c :: r =>
    by_cases hws : isJsonWs c = true
    · rw [pVal_none_of_not_start f c r (not_start_of_ws c hws)] at h
      exact Option.noConfusion h
    · exact skipWs_cons_of_not_ws c r (Bool.eq_false_iff.mpr hws)

theorem skipWs_eq_of_pFields (f : Nat) (cs : List Char)
    (x : List (String × JSValue) × List Char) (h : pFields f cs = some x) :
    skipWs cs = cs := by
  match f, cs with
  | 0, cs => simp [pFields] at h
  | f + 1, [] => rfl
  | f + 1, c :: r =>
    by_cases hc : c = '"'
    · exact skipWs_cons_of_not_ws c r (by rw [hc]; decide)
    · rw [pFields.eq_def] at h
      simp [hc] at h

theorem jVal_jMembers_of_pVal (fuel : Nat) :
    (∀ (cs : List Char) (v : JSValue) (rest : List Char),
      pVal fuel cs = some (v, rest) → headNot numCont rest →
      jVal fuel cs = some rest) ∧
    (∀ (cs : List Char) (fs : List (String × JSValue)) (rest : List Char),
      pFields fuel cs = some (fs, rest) → jMembers fuel cs = some rest) := by
  induction fuel with
  | zero =>
    constructor
    · intro cs v rest h _
      simp [pVal] at h
    · intro cs fs rest h
      simp [pFields] at h
  | succ f ih =>
    constructor
    · intro cs v rest h hnc
      match cs with
      | [] => simp [pVal] at h
      | c :: r =>
        simp only [pVal] at h
        simp only [jVal]
        by_cases h1 : c = '"'
        · rw [if_pos h1] at h
          rw [if_pos h1]
          cases hps : pStr r with
          | none => rw [hps] at h; exact Option.noConfusion h
          | some p =>
            obtain ⟨s, r1⟩ := p
            rw [hps] at h
            simp only [Option.some.injEq, Prod.mk.injEq] at h
            show some r1 = some rest
            rw [h.2]
        · rw [if_neg h1] at h
          rw [if_neg h1]
          by_cases h2 : c = 't'
          · rw [if_pos h2] at h
            rw [if_pos h2]
            by_cases hp : ['r', 'u', 'e'].isPrefixOf r = true
            · rw [if_pos hp] at h
              rw [if_pos hp]
              simp only [Option.some.injEq, Prod.mk.injEq] at h
              rw [h.2]
            · rw [if_neg hp] at h
              exact Option.noConfusion h
          · rw [if_neg h2] at h
            rw [if_neg h2]
            by_cases h3 : c = 'f'
            · rw [if_pos h3] at h
              rw [if_pos h3]
              by_cases hp : ['a', 'l', 's', 'e'].isPrefixOf r = true
              · rw [if_pos hp] at h
                rw [if_pos hp]
                simp only [Option.some.injEq, Prod.mk.injEq] at h
                rw [h.2]
              · rw [if_neg hp] at h
                exact Option.noConfusion h
            · rw [if_neg h3] at h
              rw [if_neg h3]
              by_cases h4 : c = '-'
              · have hn : ¬c = 'n' := by rw [h4]; decide
                rw [if_neg hn, if_pos h4]
                rw [if_pos h4] at h
                cases r with
                | nil => simp [pNeg] at h
                | cons d r2 =>
                  simp only [pNeg] at h
                  simp only [jNumBody]
                  by_cases hd0 : d = '0'
                  · rw [if_pos hd0] at h
                    rw [if_pos hd0]
                    simp only [Option.some.injEq, Prod.mk.injEq] at h
                    rw [h.2]
                    exact jFracExp_of_headNot rest hnc
                  · rw [if_neg hd0] at h
                    rw [if_neg hd0]
                    by_cases hdd : d.isDigit = true
                    · rw [if_pos hdd] at h
                      rw [if_pos hdd]
                      simp only [Option.some.injEq, Prod.mk.injEq] at h
                      rw [h.2]
                      exact jFracExp_of_headNot rest hnc
                    · rw [if_neg hdd] at h
                      exact Option.noConfusion h
              · rw [if_neg h4] at h
                by_cases h5 : c = '0'
                · have hn : ¬c = 'n' := by rw [h5]; decide
                  have hcd : c.isDigit = true := by rw [h5]; decide
                  rw [if_neg hn, if_neg h4, if_pos hcd]
                  rw [if_pos h5] at h
                  simp only [Option.some.injEq, Prod.mk.injEq] at h
                  simp only [jNumBody]
                  rw [if_pos h5, h.2]
                  exact jFracExp_of_headNot rest hnc
                · rw [if_neg h5] at h
                  by_cases h6 : c.isDigit = true
                  · have hn : ¬c = 'n' := fun he => by rw [he] at h6; exact absurd h6 (by decide)
                    rw [if_neg hn, if_neg h4, if_pos h6]
                    rw [if_pos h6] at h
                    simp only [Option.some.injEq, Prod.mk.injEq] at h
                    simp only [jNumBody]
                    rw [if_neg h5, if_pos h6, h.2]
                    exact jFracExp_of_headNot rest hnc
                  · rw [if_neg h6] at h
                    by_cases h7 : c = leftBrace
                    · have hn : ¬c = 'n' := by rw [h7]; decide
                      rw [if_neg hn, if_neg h4, if_neg h6, if_pos h7]
                      rw [if_pos h7] at h
                      cases r with
                      | nil => simp [pObjResult] at h
                      | cons d r2 =>
                        simp only [pObjResult] at h
                        by_cases hdb : d = rightBrace
                        · rw [if_pos hdb] at h
                          simp only [Option.some.injEq, Prod.mk.injEq] at h
                          rw [skipWs_cons_of_not_ws d r2 (by rw [hdb]; decide)]
                          show (if d = rightBrace then some r2 else jMembers f (d :: r2)) =
                            some rest
                          rw [if_pos hdb, h.2]
                        · rw [if_neg hdb] at h
                          cases hpf : pFields f (d :: r2) with
                          | none => rw [hpf] at h; exact Option.noConfusion h
                          | some q =>
                            obtain ⟨fs2, r3⟩ := q
                            rw [hpf] at h
                            simp only [Option.some.injEq, Prod.mk.injEq] at h
                            rw [skipWs_eq_of_pFields f (d :: r2) _ hpf]
                            show (if d = rightBrace then some r2 else jMembers f (d :: r2)) =
                              some rest
                            rw [if_neg hdb, ih.2 (d :: r2) fs2 r3 hpf, h.2]
                    · rw [if_neg h7] at h
                      exact Option.noConfusion h
    · intro cs fs rest h
      match cs with
      | [] => simp [pFields] at h
      | c :: r =>
        simp only [pFields] at h
        simp only [jMembers]
        by_cases hc : c = '"'
        · rw [if_pos hc] at h
          rw [if_pos hc]
          cases hps : pStr r with
          | none => rw [hps] at h; exact Option.noConfusion h
          | some p =>
            obtain ⟨k, r1⟩ := p
            rw [hps] at h
            cases r1 with
            | nil => exact Option.noConfusion h
            | cons c1 r2 =>
              replace h : (if c1 = ':' then
                  match pVal f r2 with
                  | some (v, r3) =>
                    (match r3 with
                     | [] => none
                     | d :: r4 =>
                       if d = ',' then
                         match pFields f r4 with
                         | some (fs2, r5) => some ((String.mk k, v) :: fs2, r5)
                         | none => none
                       else if d = rightBrace then some ([(String.mk k, v)], r4)
                       else none)
                  | none => none
                else none) = some (fs, rest) := h
              by_cases hc1 : c1 = ':'
              · subst hc1
                rw [if_pos rfl] at h
                show (match jVal f (skipWs r2) with
                  | some r3 =>
                    (match skipWs r3 with
                     | [] => none
                     | d :: r4 =>
                       if d = ',' then jMembers f (skipWs r4)
                       else if d = rightBrace then some r4
                       else none)
                  | none => none) = some rest
                cases hpv : pVal f r2 with
                | none => rw [hpv] at h; exact Option.noConfusion h
                | some q =>
                  obtain ⟨v, r3⟩ := q
                  rw [hpv] at h
                  rw [skipWs_eq_of_pVal f r2 _ hpv]
                  cases r3 with
                  | nil => exact Option.noConfusion h
                  | cons d r4 =>
                    replace h : (if d = ',' then
                        match pFields f r4 with
                        | some (fs2, r5) => some ((String.mk k, v) :: fs2, r5)
                        | none => none
                      else if d = rightBrace then some ([(String.mk k, v)], r4)
                      else none) = some (fs, rest) := h
                    by_cases hd : d = ','
                    · rw [if_pos hd] at h
                      cases hpf : pFields f r4 with
                      | none => rw [hpf] at h; exact Option.noConfusion h
                      | some q2 =>
                        obtain ⟨fs2, r5⟩ := q2
                        rw [hpf] at h
                        simp only [Option.some.injEq, Prod.mk.injEq] at h
                        rw [ih.1 r2 v (d :: r4) hpv
                          (show numCont d = false by rw [hd]; decide)]
                        show (match skipWs (d :: r4) with
                          | [] => none
                          | d :: r4 =>
                            if d = ',' then jMembers f (skipWs r4)
                            else if d = rightBrace then some r4
                            else none) = some rest
                        rw [skipWs_cons_of_not_ws d r4 (by rw [hd]; decide)]
                        show (if d = ',' then jMembers f (skipWs r4)
                          else if d = rightBrace then some r4 else none) = some rest
                        rw [if_pos hd, skipWs_eq_of_pFields f r4 _ hpf,
                          ih.2 r4 fs2 r5 hpf, h.2]
                    · rw [if_neg hd] at h
                      by_cases hdb : d = rightBrace
                      · rw [if_pos hdb] at h
                        simp only [Option.some.injEq, Prod.mk.injEq] at h
                        rw [ih.1 r2 v (d :: r4) hpv
                          (show numCont d = false by rw [hdb]; decide)]
                        show (match skipWs (d :: r4) with
                          | [] => none
                          | d :: r4 =>
                            if d = ',' then jMembers f (skipWs r4)
                            else if d = rightBrace then some r4
                            else none) = some rest
                        rw [skipWs_cons_of_not_ws d r4 (by rw [hdb]; decide)]
                        show (if d = ',' then jMembers f (skipWs r4)
                          else if d = rightBrace then some r4 else none) = some rest
                        rw [if_neg hd, if_pos hdb, h.2]
                      · rw [if_neg hdb] at h
                        exact Option.noConfusion h
              · rw [if_neg hc1] at h
                exact Option.noConfusion h
        · rw [if_neg hc] at h
          exact Option.noConfusion h

/-- Whatever the fragment parser accepts, `JSON.parse` accepts: the
fragment grammar is contained in the full JSON grammar. -/
theorem jsonAccepts_of_jsonParse (s : String) (v : JSValue) (h : jsonParse s = some v) :
    jsonAccepts s = true := by
  unfold jsonParse at h
  cases hp : pVal (s.data.length + 1) s.data with
  | none => rw [hp] at h; exact Option.noConfusion h
  | some p =>
    obtain ⟨v2, r⟩ := p
    rw [hp] at h
    cases r with
    | cons c r2 => exact Option.noConfusion h
    | nil =>
      have hs : skipWs s.data = s.data := skipWs_eq_of_pVal _ _ _ hp
      have hj : jVal (s.data.length + 1) s.data = some [] :=
        (jVal_jMembers_of_pVal (s.data.length + 1)).1 s.data v2 [] hp trivial
      unfold jsonAccepts
      rw [hs, hj]
      rfl

/-- If `JSON.parse` rejects the string, so does the fragment parser. -/
theorem jsonParse_eq_none_of_not_accepts (s : String) (h : jsonAccepts s = false) :
    jsonParse s = none := by
  cases hp : jsonParse s with
  | none => rfl
  | some v => rw [jsonAccepts_of_jsonParse s v hp] at h; cases h

/-! Chunking.  `Database._splitIntoChunks` walks the string in steps of the
chunk size, pushing `str.substring(i, i + size)`; `JSONStorage`'s private
splitter and the first `part_001` copy's `set` instead compute
`ceil(length / size)` and slice chunk `i` at offset `i * size`.  Both are
embedded here (over character lists), and proved equal. -/

/-- Fuel-driven body of the chunk splitter; fuel `l.length` is always
enough because each round drops `c ≥ 1` characters. -/
def splitIntoChunksAux (fuel c : Nat) (l : List Char) : List (List Char) :=
  match fuel with
  | 0 => []
  | f + 1 =>
    if l = [] ∨ c = 0 then []
    else l.take c :: splitIntoChunksAux f c (l.drop c)

/-- `Database._splitIntoChunks`, generalized over the chunk size `c`
(`MAX_CHUNK_SIZE` in the class, a constructor argument in `JSONStorage`).
For `c = 0` the JS loop would not terminate; the sources only ever call it
with a positive size. -/
def splitIntoChunks (c : Nat) (l : List Char) : List (List Char) :=
  splitIntoChunksAux l.length c l

theorem splitIntoChunksAux_invariant (f1 : Nat) : ∀ (f2 c : Nat) (l : List Char),
    l.length ≤ f1 → l.length ≤ f2 → splitIntoChunksAux f1 c l = splitIntoChunksAux f2 c l := by
  induction f1 with
  | zero =>
    intro f2 c l h1 _
    have hl : l = [] := List.eq_nil_of_length_eq_zero (Nat.le_zero.mp h1)
    subst hl
    match f2 with
    | 0 => rfl
    | g + 1 => simp [splitIntoChunksAux]
  | succ f ih =>
    intro f2 c l h1 h2
    match f2 with
    | 0 =>
      have hl : l = [] := List.eq_nil_of_length_eq_zero (Nat.le_zero.mp h2)
      subst hl
      simp [splitIntoChunksAux]
    | g + 1 =>
      by_cases hstop : l = [] ∨ c = 0
      · simp [splitIntoChunksAux, hstop]
      · push_neg at hstop
        have hlen : 0 < l.length := List.length_pos.mpr hstop.1
        have hc : 0 < c := Nat.pos_of_ne_zero hstop.2
        have hdrop : (l.drop c).length = l.length - c := List.length_drop c l
        rw [splitIntoChunksAux, splitIntoChunksAux,
          if_neg (by push_neg; exact hstop), if_neg (by push_neg; exact hstop)]
        rw [ih g c (l.drop c) (by omega) (by omega)]

theorem splitIntoChunks_nil (c : Nat) : splitIntoChunks c [] = [] := rfl

theorem splitIntoChunks_cons (c : Nat) (l : List Char) (hc : c ≠ 0) (hl : l ≠ []) :
    splitIntoChunks c l = l.take c :: splitIntoChunks c (l.drop c) := by
  have hlen : 0 < l.length := List.length_pos.mpr hl
  obtain ⟨m, hm⟩ : ∃ m, l.length = m + 1 := ⟨l.length - 1, by omega⟩
  rw [splitIntoChunks, hm, splitIntoChunksAux, if_neg (by push_neg; exact ⟨hl, hc⟩)]
  rw [splitIntoChunks]
  have hdrop : (l.drop c).length = l.length - c := List.length_drop c l
  rw [splitIntoChunksAux_invariant m (l.drop c).length c (l.drop c) (by omega) le_rfl]

theorem splitIntoChunks_ne_nil (c : Nat) (l : List Char) (hc : c ≠ 0) (hl : l ≠ []) :
    splitIntoChunks c l ≠ [] := by
  rw [splitIntoChunks_cons c l hc hl]
  exact List.cons_ne_nil _ _

theorem splitIntoChunks_flatten (c : Nat) (l : List Char) (hc : c ≠ 0) :
    (splitIntoChunks c l).flatten = l := by
  by_cases hl : l = []
  · subst hl
    rfl
  · rw [splitIntoChunks_cons c l hc hl, List.flatten_cons,
      splitIntoChunks_flatten c (l.drop c) hc, List.take_append_drop]
termination_by l.length
decreasing_by
  have : 0 < l.length := List.length_pos.mpr hl
  have : 0 < c := Nat.pos_of_ne_zero hc
  simp only [List.length_drop]
  omega

theorem splitIntoChunks_mem_length (c : Nat) (l : List Char) (hc : c ≠ 0) :
    ∀ ch ∈ splitIntoChunks c l, ch.length ≤ c := by
  by_cases hl : l = []
  · subst hl
    intro ch hch
    cases hch
  · rw [splitIntoChunks_cons c l hc hl]
    intro ch hch
    rcases List.mem_cons.mp hch with h | h
    · subst h
      simp [List.length_take]
    · exact splitIntoChunks_mem_length c (l.drop c) hc ch h
termination_by l.length
decreasing_by
  have : 0 < l.length := List.length_pos.mpr hl
  have : 0 < c := Nat.pos_of_ne_zero hc
  simp only [List.length_drop]
  omega

theorem splitIntoChunks_dropLast_length (c : Nat) (l : List Char) (hc : c ≠ 0) :
    ∀ ch ∈ (splitIntoChunks c l).dropLast, ch.length = c := by
  by_cases hl : l = []
  · subst hl
    intro ch hch
    cases hch
  · rw [splitIntoChunks_cons c l hc hl]
    by_cases hd : l.drop c = []
    · rw [hd, splitIntoChunks_nil]
      intro ch hch
      cases hch
    · have hne : splitIntoChunks c (l.drop c) ≠ [] := splitIntoChunks_ne_nil c _ hc hd
      rw [List.dropLast_cons_of_ne_nil hne]
      intro ch hch
      rcases List.mem_cons.mp hch with h | h
      · subst h
        have hlong : c ≤ l.length := by
          by_contra hlt
          push_neg at hlt
          exact hd (List.drop_eq_nil_of_le (Nat.le_of_lt hlt))
        simp [List.length_take, Nat.min_eq_left hlong]
      · exact splitIntoChunks_dropLast_length c (l.drop c) hc ch h
termination_by l.length
decreasing_by
  have : 0 < l.length := List.length_pos.mpr hl
  have : 0 < c := Nat.pos_of_ne_zero hc
  simp only [List.length_drop]
  omega

theorem splitIntoChunks_length (c : Nat) (l : List Char) (hc : c ≠ 0) :
    (splitIntoChunks c l).length = (l.length + c - 1) / c := by
  have hcpos : 0 < c := Nat.pos_of_ne_zero hc
  by_cases hl : l = []
  · subst hl
    simp [splitIntoChunks_nil, Nat.div_eq_of_lt (show c - 1 < c by omega)]
  · have hlen : 0 < l.length := List.length_pos.mpr hl
    rw [splitIntoChunks_cons c l hc hl, List.length_cons,
      splitIntoChunks_length c (l.drop c) hc, List.length_drop]
    rcases le_or_lt l.length c with hle | hgt
    · have h1 : l.length - c = 0 := by omega
      rw [h1]
      rw [Nat.div_eq_of_lt (by omega : 0 + c - 1 < c)]
      have h2 : l.length + c - 1 = (l.length - 1) + c := by omega
      rw [h2, Nat.add_div_right _ hcpos, Nat.div_eq_of_lt (by omega : l.length - 1 < c)]
    · have h2 : l.length + c - 1 = (l.length - 1) + c := by omega
      have h3 : l.length - c + c - 1 = (l.length - c - 1) + c := by omega
      rw [h3, Nat.add_div_right _ hcpos, h2, Nat.add_div_right _ hcpos]
      have h4 : l.length - 1 = (l.length - c - 1) + c := by omega
      rw [h4, Nat.add_div_right _ hcpos]
termination_by l.length
decreasing_by
  have : 0 < l.length := List.length_pos.mpr hl
  simp only [List.length_drop]
  omega

/-- Chunk `i` of the index-based splitter: `str.substr(i * c, c)` in the
first `part_001` copy, `str.slice(i * c, (i + 1) * c)` in `JSONStorage`. -/
def chunkAt (c : Nat) (l : List Char) (i : Nat) : List Char := (l.drop (i * c)).take c

theorem splitIntoChunks_eq_map_range (c : Nat) (l : List Char) (hc : c ≠ 0) :
    splitIntoChunks c l = (List.range ((l.length + c - 1) / c)).map (chunkAt c l) := by
  have hcpos : 0 < c := Nat.pos_of_ne_zero hc
  by_cases hl : l = []
  · subst hl
    simp [splitIntoChunks_nil, Nat.div_eq_of_lt (show c - 1 < c by omega)]
  · have hlen : 0 < l.length := List.length_pos.mpr hl
    have hcount : (l.length + c - 1) / c = ((l.drop c).length + c - 1) / c + 1 := by
      rw [← splitIntoChunks_length c l hc, ← splitIntoChunks_length c (l.drop c) hc,
        splitIntoChunks_cons c l hc hl, List.length_cons]
    rw [splitIntoChunks_cons c l hc hl, hcount, List.range_succ_eq_map, List.map_cons,
      List.map_map]
    congr 1
    · simp [chunkAt]
    · rw [splitIntoChunks_eq_map_range c (l.drop c) hc]
      apply List.map_congr_left
      intro i _
      simp only [Function.comp_apply, chunkAt, Nat.succ_eq_add_one]
      rw [List.drop_drop]
      congr 2
      ring
termination_by l.length
decreasing_by
  have : 0 < l.length := List.length_pos.mpr hl
  simp only [List.length_drop]
  omega

/-! The `Database` class of `src/unnamed/part_000`.  A `DB` value is the
mutable instance state (`_databaseId`, `_fullPrefixBase`, `_dataCache`,
`_knownKeys`, `_autoCache`); the substrate is passed and returned
explicitly.  The cache maps keys to possibly-undefined values, because
`_cacheValue(key, undefined)` stores `undefined` in the JS `Map`. -/

def MAX_CHUNK_SIZE : Nat := 32767

def INTERNAL_DB_PREFIX : List Char := ['§', '▌']

def tagN : List Char := ['N', '_']

def tagS : List Char := ['S', '_']

def tagM : List Char := ['M', '_']

def tagD : List Char := ['D', '_']

/-- `_fullPrefixBase`: reserved marker, database id, `_`. -/
def pfxBaseOf (id : String) : List Char := INTERNAL_DB_PREFIX ++ id.data ++ ['_']

/-- `Database._buildKey` for the NATIVE / STRING / META_CHUNK tags. -/
def buildId (pfx tag : List Char) (key : String) : List Char := pfx ++ tag ++ key.data

/-- `Database._buildKey` for a DATA_CHUNK: `⟨pfx⟩D_⟨key⟩_⟨index⟩`. -/
def chunkIdOf (pfx : List Char) (key : String) (i : Nat) : List Char :=
  pfx ++ tagD ++ key.data ++ '_' :: natToChars i

structure DB where
  databaseId : String
  pfxBase : List Char
  dataCache : List (String × Option JSValue)
  knownKeys : List String
  autoCache : Bool

/-- `Map.get` composed with `Map.has`: `some v` when the key is present. -/
def cacheFind : List (String × Option JSValue) → String → Option (Option JSValue)
  | [], _ => none
  | (j, v) :: rest, k => if j = k then some v else cacheFind rest k

def cacheDel : List (String × Option JSValue) → String → List (String × Option JSValue)
  | [], _ => []
  | (j, v) :: rest, k => if j = k then cacheDel rest k else (j, v) :: cacheDel rest k

def cacheSet (m : List (String × Option JSValue)) (k : String) (v : Option JSValue) :
    List (String × Option JSValue) :=
  (k, v) :: cacheDel m k

def keysDel : List String → String → List String
  | [], _ => []
  | j :: rest, k => if j = k then keysDel rest k else j :: keysDel rest k

def keysAdd (ks : List String) (k : String) : List String :=
  if k ∈ ks then ks else k :: ks

/-- The `!key.trim()` validity test of `set`/`get`/`delete`: the trimmed key
is empty exactly when every character is whitespace.  (`typeof key !==
"string"` cannot arise here, where every key is a string.) -/
def validKey (k : String) : Bool := !(k.data.all Char.isWhitespace)

/-- `typeof value === "object"` for the embedded values. -/
def isObjLike : JSValue → Bool
  | .obj _ => true
  | _ => false

def isStrVal : JSValue → Bool
  | .str _ => true
  | _ => false

/-- The payload characters of a string value (only used on string values). -/
def payloadOf : JSValue → List Char
  | .str s => s.data
  | _ => []

/-- `typeof processed === "string" && processed.length > MAX_CHUNK_SIZE`. -/
def isLongStr (v : JSValue) : Bool :=
  match v with
  | .str s => MAX_CHUNK_SIZE < s.data.length
  | _ => false

/-- First field of the object named `k` (JS property lookup). -/
def lookupField : List (String × JSValue) → String → Option JSValue
  | [], _ => none
  | (j, v) :: rest, k => if j = k then some v else lookupField rest k

def isNumOpt : Option JSValue → Bool
  | some (.num _) => true
  | _ => false

/-- `Database._isVector`: exactly three fields, with numeric x, y and z. -/
def isVector : JSValue → Bool
  | .obj fs =>
    isNumOpt (lookupField fs "x") && isNumOpt (lookupField fs "y") &&
      isNumOpt (lookupField fs "z") && fs.length == 3
  | _ => false

/-- `Database._checkKeyExists`: probes the NATIVE, STRING and META_CHUNK
entries (not the data chunks). -/
def checkKeyExists (pfx : List Char) (sub : Substrate) (key : String) : Bool :=
  (sGet sub (buildId pfx tagN key)).isSome || (sGet sub (buildId pfx tagS key)).isSome ||
    (sGet sub (buildId pfx tagM key)).isSome

/-- The data-chunk deletion loop `for (i = 0; i < count; i++)`, starting at
index `i` with `count` iterations left. -/
def delChunkRange (pfx : List Char) (key : String) (i count : Nat) (sub : Substrate) :
    Substrate :=
  match count with
  | 0 => sub
  | m + 1 => delChunkRange pfx key (i + 1) m (sDel sub (chunkIdOf pfx key i))

/-- `Database._deleteKeyChunks`: first removes the NATIVE, STRING and
META_CHUNK entries, then reads the chunk count from the (just removed)
META_CHUNK entry and deletes that many data chunks. -/
def deleteKeyChunks (pfx : List Char) (sub : Substrate) (key : String) : Substrate :=
  let sub1 :=
    sDel (sDel (sDel sub (buildId pfx tagN key)) (buildId pfx tagS key))
      (buildId pfx tagM key)
  match sGet sub1 (buildId pfx tagM key) with
  | some (.num n) => delChunkRange pfx key 0 n.toNat sub1
  | _ => sub1

/-- `chunks.forEach((chunk, i) => setDynamicProperty(chunkId, chunk))`. -/
def writeChunksFrom (pfx : List Char) (key : String) (i : Nat) (chunks : List (List Char))
    (sub : Substrate) : Substrate :=
  match chunks with
  | [] => sub
  | ch :: rest =>
    writeChunksFrom pfx key (i + 1) rest (sSet sub (chunkIdOf pfx key i) (some (.str (String.mk ch))))

/-- `Database.set` of part_000. -/
def setOp (db : DB) (sub : Substrate) (key : String) (value : Option JSValue) :
    Except String (DB × Substrate) :=
  if !validKey key then .error "Key must be a non-empty string"
  else
    let sub1 := deleteKeyChunks db.pfxBase sub key
    let cache1 := cacheDel db.dataCache key
    match value with
    | none =>
      .ok ({ db with dataCache := cache1, knownKeys := keysDel db.knownKeys key }, sub1)
    | some w =>
      let processed : JSValue := if isObjLike w && !isVector w then .str (stringify w) else w
      let sub2 :=
        if isLongStr processed then
          let chunks := splitIntoChunks MAX_CHUNK_SIZE (payloadOf processed)
          writeChunksFrom db.pfxBase key 0 chunks
            (sSet sub1 (buildId db.pfxBase tagM key) (some (.num chunks.length)))
        else if isVector w then sSet sub1 (buildId db.pfxBase tagN key) (some w)
        else
          sSet sub1 (buildId db.pfxBase (if isStrVal processed then tagS else tagN) key)
            (some processed)
      .ok ({ db with
        dataCache := if db.autoCache then cacheSet cache1 key (some w) else cache1,
        knownKeys := keysAdd db.knownKeys key }, sub2)

/-- JS string coercion, as used by `stringVal += getDynamicProperty(...)`
(a missing chunk concatenates the text `undefined`). -/
def jsToDisplay : Option JSValue → String
  | none => "undefined"
  | some (.str s) => s
  | some (.num n) => String.mk (intChars n)
  | some (.bool b) => if b then "true" else "false"
  | some (.obj _) => "[object Object]"

/-- The chunk-concatenation loop of `get`. -/
def readChunksFrom (pfx : List Char) (key : String) (sub : Substrate) (i count : Nat)
    (acc : String) : String :=
  match count with
  | 0 => acc
  | m + 1 =>
    readChunksFrom pfx key sub (i + 1) m (acc ++ jsToDisplay (sGet sub (chunkIdOf pfx key i)))

/-- JS truthiness of an embedded value (`stringVal ? ... : undefined`). -/
def jsTruthy : JSValue → Bool
  | .num n => n != 0
  | .bool b => b
  | .str s => !s.data.isEmpty
  | .obj _ => true

/-- `Database._cacheValue`. -/
def cacheValue (db : DB) (key : String) (v : Option JSValue) : Option JSValue × DB :=
  (v, if db.autoCache then { db with dataCache := cacheSet db.dataCache key v } else db)

/-- `Database.get` of part_000. -/
def getOp (db : DB) (sub : Substrate) (key : String) : Except String (Option JSValue × DB) :=
  if !validKey key then .error "Key must be a non-empty string"
  else
    match cacheFind db.dataCache key with
    | some v => .ok (v, db)
    | none =>
      if !(db.knownKeys.contains key || checkKeyExists db.pfxBase sub key) then .ok (none, db)
      else
        match sGet sub (buildId db.pfxBase tagN key) with
        | some nv => .ok (cacheValue db key (some nv))
        | none =>
          let stringVal : Option JSValue :=
            match sGet sub (buildId db.pfxBase tagS key) with
            | some sv => some sv
            | none =>
              match sGet sub (buildId db.pfxBase tagM key) with
              | some (.num n) => some (.str (readChunksFrom db.pfxBase key sub 0 n.toNat ""))
              | _ => none
          let res : Option JSValue :=
            match stringVal with
            | none => none
            | some sv =>
              if jsTruthy sv then some ((jsonParse (jsToDisplay (some sv))).getD sv) else none
          .ok (cacheValue db key res)

/-- `Database.has`. -/
def hasOp (db : DB) (sub : Substrate) (key : String) : Bool :=
  (cacheFind db.dataCache key).isSome || db.knownKeys.contains key ||
    checkKeyExists db.pfxBase sub key

/-- `Database.delete` of part_000 (returns whether the key existed). -/
def deleteOp (db : DB) (sub : Substrate) (key : String) :
    Except String (Bool × DB × Substrate) :=
  if !validKey key then .error "Key must be a non-empty string"
  else
    let existed := hasOp db sub key
    let sub1 := deleteKeyChunks db.pfxBase sub key
    .ok (existed,
      { db with dataCache := cacheDel db.dataCache key, knownKeys := keysDel db.knownKeys key },
      sub1)

/-- `Database.clear`: deletes every substrate id with this store's prefix,
then empties the cache and the key index. -/
def clearOp (db : DB) (sub : Substrate) : DB × Substrate :=
  ({ db with dataCache := [], knownKeys := [] },
    ((sIds sub).filter (fun i => db.pfxBase.isPrefixOf i)).foldl sDel sub)

/-- `Database.unload`: cache eviction only. -/
def unloadOp (db : DB) (key : String) : DB :=
  { db with dataCache := cacheDel db.dataCache key }

/-! Startup index reconstruction and the interned-instance registry. -/

/-- The DATA_CHUNK alternative of the startup regex,
`⟨pfx⟩D_(.+?)_\d+$`, applied to the part after `⟨pfx⟩D_`: the lazy group
captures everything before the underscore that directly precedes the
maximal trailing digit run. -/
def splitDataRemainder (r : List Char) : Option (List Char) :=
  let rev := r.reverse
  let ds := rev.takeWhile Char.isDigit
  let rest := rev.dropWhile Char.isDigit
  if ds.isEmpty then none
  else
    match rest with
    | '_' :: base => if base.isEmpty then none else some base.reverse
    | _ => none

/-- The startup regex
`⟨pfx⟩(?:N_|S_|M_)(.+)|⟨pfx⟩D_(.+?)_\d+$` applied to one property id
(the caller has already filtered ids to those starting with the prefix;
the embedding assumes the prefix marker does not reoccur inside the id,
which holds for the keys written by the store itself). -/
def extractKey (pfx id : List Char) : Option (List Char) :=
  if pfx.isPrefixOf id then
    match id.drop pfx.length with
    | 'N' :: '_' :: (c :: k) => some (c :: k)
    | 'S' :: '_' :: (c :: k) => some (c :: k)
    | 'M' :: '_' :: (c :: k) => some (c :: k)
    | 'D' :: '_' :: r => splitDataRemainder r
    | _ => none
  else none

/-- `Database._initializeFromProperties`: prefix scan over all property
ids, adding each extracted logical key to the index. -/
def initKnownKeys (pfx : List Char) (sub : Substrate) : List String :=
  ((sIds sub).filter (fun i => pfx.isPrefixOf i)).foldl
    (fun ks i =>
      match extractKey pfx i with
      | some k => keysAdd ks (String.mk k)
      | none => ks) []

/-- A freshly initialized instance for `id` over substrate `sub`. -/
def initDB (id : String) (sub : Substrate) : DB :=
  { databaseId := id, pfxBase := pfxBaseOf id, dataCache := [],
    knownKeys := initKnownKeys (pfxBaseOf id) sub, autoCache := true }

/-- The per-source instance registry `DB_INSTANCES` (a source is an opaque
handle; its identity is modelled by a number). -/
abbrev SourceId := Nat

abbrev Registry := List ((SourceId × String) × DB)

def regFind : Registry → SourceId × String → Option DB
  | [], _ => none
  | (j, db) :: rest, k => if j = k then some db else regFind rest k

/-- The part_000 constructor: validates the id, returns the interned
instance when one exists for this (source, id) pair, otherwise initializes
from the substrate and registers the new instance. -/
def construct (id : String) (src : SourceId) (reg : Registry) (sub : Substrate) :
    Except String (DB × Registry) :=
  if !validKey id then .error "Invalid database ID"
  else
    match regFind reg (src, id) with
    | some db => .ok (db, reg)
    | none =>
      let db := initDB id sub
      .ok (db, ((src, id), db) :: reg)

/-! The first `Database` copy of `src/unnamed/part_001`.  It differs from
part_000 in that the constructor accepts any id, `set` silently returns on
a non-string key and performs the write for any string key (including the
empty string), `get` and `delete` skip key validation, and the chunked
write computes `Math.ceil(length / MAX_CHUNK_SIZE)` and slices chunk `i`
with `substr(i * MAX_CHUNK_SIZE, MAX_CHUNK_SIZE)`. -/

/-- The chunk-writing loop of the part_001 copy's `set`. -/
def writeChunksIdx (pfx : List Char) (key : String) (s : List Char) (i count : Nat)
    (sub : Substrate) : Substrate :=
  match count with
  | 0 => sub
  | m + 1 =>
    writeChunksIdx pfx key s (i + 1) m
      (sSet sub (chunkIdOf pfx key i) (some (.str (String.mk (chunkAt MAX_CHUNK_SIZE s i)))))

/-- `Database.set` of the first part_001 copy (no key validation). -/
def setOp1 (db : DB) (sub : Substrate) (key : String) (value : Option JSValue) :
    DB × Substrate :=
  let sub1 := deleteKeyChunks db.pfxBase sub key
  let cache1 := cacheDel db.dataCache key
  match value with
  | none => ({ db with dataCache := cache1, knownKeys := keysDel db.knownKeys key }, sub1)
  | some w =>
    let processed : JSValue := if isObjLike w && !isVector w then .str (stringify w) else w
    let sub2 :=
      if isLongStr processed then
        let chunkCount := ((payloadOf processed).length + MAX_CHUNK_SIZE - 1) / MAX_CHUNK_SIZE
        writeChunksIdx db.pfxBase key (payloadOf processed) 0 chunkCount
          (sSet sub1 (buildId db.pfxBase tagM key) (some (.num chunkCount)))
      else if isVector w then sSet sub1 (buildId db.pfxBase tagN key) (some w)
      else
        sSet sub1 (buildId db.pfxBase (if isStrVal processed then tagS else tagN) key)
          (some processed)
    ({ db with
      dataCache := if db.autoCache then cacheSet cache1 key (some w) else cache1,
      knownKeys := keysAdd db.knownKeys key }, sub2)

/-- `Database.get` of the first part_001 copy (no key validation). -/
def getOp1 (db : DB) (sub : Substrate) (key : String) : Option JSValue × DB :=
  match cacheFind db.dataCache key with
  | some v => (v, db)
  | none =>
    if !(db.knownKeys.contains key || checkKeyExists db.pfxBase sub key) then (none, db)
    else
      match sGet sub (buildId db.pfxBase tagN key) with
      | some nv => cacheValue db key (some nv)
      | none =>
        let stringVal : Option JSValue :=
          match sGet sub (buildId db.pfxBase tagS key) with
          | some sv => some sv
          | none =>
            match sGet sub (buildId db.pfxBase tagM key) with
            | some (.num n) => some (.str (readChunksFrom db.pfxBase key sub 0 n.toNat ""))
            | _ => none
        let res : Option JSValue :=
          match stringVal with
          | none => none
          | some sv =>
            if jsTruthy sv then some ((jsonParse (jsToDisplay (some sv))).getD sv) else none
        cacheValue db key res

/-- `Database.delete` of the first part_001 copy (no key validation). -/
def deleteOp1 (db : DB) (sub : Substrate) (key : String) : Bool × DB × Substrate :=
  let existed := hasOp db sub key
  let sub1 := deleteKeyChunks db.pfxBase sub key
  (existed,
    { db with dataCache := cacheDel db.dataCache key, knownKeys := keysDel db.knownKeys key },
    sub1)

/-- The part_001 first-copy constructor (no id validation). -/
def construct1 (id : String) (src : SourceId) (reg : Registry) (sub : Substrate) :
    DB × Registry :=
  match regFind reg (src, id) with
  | some db => (db, reg)
  | none =>
    let db := initDB id sub
    (db, ((src, id), db) :: reg)

/-! Small facts about the cache, the key index and property ids. -/

theorem cacheFind_cacheSet_self (m : List (String × Option JSValue)) (k : String)
    (v : Option JSValue) : cacheFind (cacheSet m k v) k = some v := by
  simp [cacheSet, cacheFind]

theorem cacheFind_cacheDel_self (m : List (String × Option JSValue)) (k : String) :
    cacheFind (cacheDel m k) k = none := by
  induction m with
  | nil => rfl
  | cons e rest ih =>
    obtain ⟨j, v⟩ := e
    by_cases h : j = k
    · simp [cacheDel, h, ih]
    · simp [cacheDel, cacheFind, h, ih]

theorem keysAdd_contains_self (ks : List String) (k : String) :
    (keysAdd ks k).contains k = true := by
  by_cases h : k ∈ ks
  · simp [keysAdd, h, List.contains, List.elem_iff]
  · simp [keysAdd, h, List.contains, List.elem_iff]

theorem mem_keysAdd_self (ks : List String) (k : String) : k ∈ keysAdd ks k := by
  by_cases h : k ∈ ks <;> simp [keysAdd, h]

theorem keysDel_not_mem (ks : List String) (k : String) : k ∉ keysDel ks k := by
  induction ks with
  | nil => simp [keysDel]
  | cons j rest ih =>
    by_cases h : j = k
    · simpa [keysDel, h] using ih
    · simp [keysDel, h, ih]
      exact fun he => absurd he.symm h

theorem regFind_cons_self (reg : Registry) (p : SourceId × String) (db : DB) :
    regFind ((p, db) :: reg) p = some db := by
  simp [regFind]

/-- Ids that differ in the character right after a common front differ. -/
theorem tagged_ne (pfx s1 s2 : List Char) (c1 c2 : Char) (h : c1 ≠ c2) :
    pfx ++ c1 :: s1 ≠ pfx ++ c2 :: s2 := by
  intro he
  have h2 : c1 :: s1 = c2 :: s2 := List.append_cancel_left he
  injection h2 with h3 _
  exact h h3

theorem buildId_shape (pfx t : List Char) (k : String) :
    buildId pfx t k = pfx ++ (t ++ k.data) := by
  simp [buildId]

theorem chunkIdOf_shape (pfx : List Char) (k : String) (i : Nat) :
    chunkIdOf pfx k i = pfx ++ ('D' :: '_' :: (k.data ++ '_' :: natToChars i)) := by
  simp [chunkIdOf, tagD]

theorem buildId_tagN_shape (pfx : List Char) (k : String) :
    buildId pfx tagN k = pfx ++ ('N' :: '_' :: k.data) := by
  simp [buildId, tagN]

theorem buildId_tagS_shape (pfx : List Char) (k : String) :
    buildId pfx tagS k = pfx ++ ('S' :: '_' :: k.data) := by
  simp [buildId, tagS]

theorem buildId_tagM_shape (pfx : List Char) (k : String) :
    buildId pfx tagM k = pfx ++ ('M' :: '_' :: k.data) := by
  simp [buildId, tagM]

theorem chunkId_ne_tagN (pfx : List Char) (k1 k2 : String) (i : Nat) :
    chunkIdOf pfx k1 i ≠ buildId pfx tagN k2 := by
  rw [chunkIdOf_shape, buildId_tagN_shape]
  exact tagged_ne pfx _ _ 'D' 'N' (by decide)

theorem chunkId_ne_tagS (pfx : List Char) (k1 k2 : String) (i : Nat) :
    chunkIdOf pfx k1 i ≠ buildId pfx tagS k2 := by
  rw [chunkIdOf_shape, buildId_tagS_shape]
  exact tagged_ne pfx _ _ 'D' 'S' (by decide)

theorem chunkId_ne_tagM (pfx : List Char) (k1 k2 : String) (i : Nat) :
    chunkIdOf pfx k1 i ≠ buildId pfx tagM k2 := by
  rw [chunkIdOf_shape, buildId_tagM_shape]
  exact tagged_ne pfx _ _ 'D' 'M' (by decide)

theorem tagN_ne_tagS (pfx : List Char) (k1 k2 : String) :
    buildId pfx tagN k1 ≠ buildId pfx tagS k2 := by
  rw [buildId_tagN_shape, buildId_tagS_shape]
  exact tagged_ne pfx _ _ 'N' 'S' (by decide)

theorem tagN_ne_tagM (pfx : List Char) (k1 k2 : String) :
    buildId pfx tagN k1 ≠ buildId pfx tagM k2 := by
  rw [buildId_tagN_shape, buildId_tagM_shape]
  exact tagged_ne pfx _ _ 'N' 'M' (by decide)

theorem tagS_ne_tagM (pfx : List Char) (k1 k2 : String) :
    buildId pfx tagS k1 ≠ buildId pfx tagM k2 := by
  rw [buildId_tagS_shape, buildId_tagM_shape]
  exact tagged_ne pfx _ _ 'S' 'M' (by decide)

theorem chunkIdOf_inj_index (pfx : List Char) (k : String) (i j : Nat)
    (h : chunkIdOf pfx k i = chunkIdOf pfx k j) : i = j := by
  rw [chunkIdOf_shape, chunkIdOf_shape] at h
  have h2 := List.append_cancel_left h
  injection h2 with _ h3
  injection h3 with _ h4
  have h5 := List.append_cancel_left h4
  injection h5 with _ h6
  exact natToChars_inj i j h6

/-! Shape lemmas for `set` and `get`. -/

/-- Instance state after a successful `set(key, w)`. -/
def dbAfterSet (db : DB) (k : String) (w : JSValue) : DB :=
  { db with
    dataCache :=
      if db.autoCache then cacheSet (cacheDel db.dataCache k) k (some w)
      else cacheDel db.dataCache k,
    knownKeys := keysAdd db.knownKeys k }

/-- The META_CHUNK probe inside `_deleteKeyChunks` always reads the entry
it has just removed, so the data-chunk loop never runs. -/
theorem deleteKeyChunks_eq (pfx : List Char) (sub : Substrate) (k : String) :
    deleteKeyChunks pfx sub k =
      sDel (sDel (sDel sub (buildId pfx tagN k)) (buildId pfx tagS k)) (buildId pfx tagM k) := by
  simp [deleteKeyChunks, sGet_sDel_self]

theorem deleteKeyChunks_sGet_N (pfx : List Char) (sub : Substrate) (k : String) :
    sGet (deleteKeyChunks pfx sub k) (buildId pfx tagN k) = none := by
  rw [deleteKeyChunks_eq,
    sGet_sDel_ne _ _ _ (tagN_ne_tagM pfx k k),
    sGet_sDel_ne _ _ _ (tagN_ne_tagS pfx k k),
    sGet_sDel_self]

theorem deleteKeyChunks_sGet_S (pfx : List Char) (sub : Substrate) (k : String) :
    sGet (deleteKeyChunks pfx sub k) (buildId pfx tagS k) = none := by
  rw [deleteKeyChunks_eq,
    sGet_sDel_ne _ _ _ (tagS_ne_tagM pfx k k),
    sGet_sDel_self]

theorem deleteKeyChunks_sGet_M (pfx : List Char) (sub : Substrate) (k : String) :
    sGet (deleteKeyChunks pfx sub k) (buildId pfx tagM k) = none := by
  rw [deleteKeyChunks_eq, sGet_sDel_self]

theorem setOp_num (db : DB) (sub : Substrate) (k : String) (n : Int)
    (hk : validKey k = true) :
    setOp db sub k (some (.num n)) = .ok (dbAfterSet db k (.num n),
      sSet (deleteKeyChunks db.pfxBase sub k) (buildId db.pfxBase tagN k) (some (.num n))) := by
  simp [setOp, hk, dbAfterSet, isObjLike, isVector, isLongStr, isStrVal]

theorem setOp_bool (db : DB) (sub : Substrate) (k : String) (b : Bool)
    (hk : validKey k = true) :
    setOp db sub k (some (.bool b)) = .ok (dbAfterSet db k (.bool b),
      sSet (deleteKeyChunks db.pfxBase sub k) (buildId db.pfxBase tagN k) (some (.bool b))) := by
  simp [setOp, hk, dbAfterSet, isObjLike, isVector, isLongStr, isStrVal]

theorem setOp_vector (db : DB) (sub : Substrate) (k : String) (w : JSValue)
    (hk : validKey k = true) (hv : isVector w = true) :
    setOp db sub k (some w) = .ok (dbAfterSet db k w,
      sSet (deleteKeyChunks db.pfxBase sub k) (buildId db.pfxBase tagN k) (some w)) := by
  have hobj : isObjLike w = true := by
    match w with
    | .obj fs => rfl
    | .num n => simp [isVector] at hv
    | .bool b => simp [isVector] at hv
    | .str s => simp [isVector] at hv
  have hlong : isLongStr w = false := by
    match w with
    | .obj fs => rfl
    | .num n => rfl
    | .bool b => rfl
    | .str s => simp [isVector] at hv
  simp [setOp, hk, dbAfterSet, hobj, hv, hlong]

theorem setOp_short_str (db : DB) (sub : Substrate) (k : String) (s : String)
    (hk : validKey k = true) (hlen : s.data.length ≤ MAX_CHUNK_SIZE) :
    setOp db sub k (some (.str s)) = .ok (dbAfterSet db k (.str s),
      sSet (deleteKeyChunks db.pfxBase sub k) (buildId db.pfxBase tagS k) (some (.str s))) := by
  have hlong : isLongStr (.str s) = false := by
    simp only [isLongStr, decide_eq_false_iff_not, Nat.not_lt]
    exact hlen
  simp [setOp, hk, dbAfterSet, isObjLike, isVector, hlong, isStrVal]

theorem setOp_long_str (db : DB) (sub : Substrate) (k : String) (s : String)
    (hk : validKey k = true) (hlen : MAX_CHUNK_SIZE < s.data.length) :
    setOp db sub k (some (.str s)) = .ok (dbAfterSet db k (.str s),
      writeChunksFrom db.pfxBase k 0 (splitIntoChunks MAX_CHUNK_SIZE s.data)
        (sSet (deleteKeyChunks db.pfxBase sub k) (buildId db.pfxBase tagM k)
          (some (.num (splitIntoChunks MAX_CHUNK_SIZE s.data).length)))) := by
  have hlong : isLongStr (.str s) = true := by
    simp only [isLongStr, decide_eq_true_eq]
    exact hlen
  simp [setOp, hk, dbAfterSet, isObjLike, isVector, hlong, payloadOf]

theorem setOp_obj_short (db : DB) (sub : Substrate) (k : String)
    (fs : List (String × JSValue)) (hk : validKey k = true)
    (hnv : isVector (.obj fs) = false)
    (hlen : (stringifyChars (.obj fs)).length ≤ MAX_CHUNK_SIZE) :
    setOp db sub k (some (.obj fs)) = .ok (dbAfterSet db k (.obj fs),
      sSet (deleteKeyChunks db.pfxBase sub k) (buildId db.pfxBase tagS k)
        (some (.str (stringify (.obj fs))))) := by
  simp [setOp, hk, dbAfterSet, isObjLike, hnv, isLongStr, isStrVal, stringify,
    Nat.not_lt.mpr hlen]

theorem setOp_obj_long (db : DB) (sub : Substrate) (k : String)
    (fs : List (String × JSValue)) (hk : validKey k = true)
    (hnv : isVector (.obj fs) = false)
    (hlen : MAX_CHUNK_SIZE < (stringifyChars (.obj fs)).length) :
    setOp db sub k (some (.obj fs)) = .ok (dbAfterSet db k (.obj fs),
      writeChunksFrom db.pfxBase k 0 (splitIntoChunks MAX_CHUNK_SIZE (stringifyChars (.obj fs)))
        (sSet (deleteKeyChunks db.pfxBase sub k) (buildId db.pfxBase tagM k)
          (some (.num (splitIntoChunks MAX_CHUNK_SIZE (stringifyChars (.obj fs))).length)))) := by
  simp [setOp, hk, dbAfterSet, isObjLike, hnv, isLongStr, payloadOf, stringify, hlen]

/-- The value `get` computes once the cache and index checks have passed:
NATIVE first, then STRING, then chunk reassembly, then decode. -/
def readResult (pfx : List Char) (sub : Substrate) (k : String) : Option JSValue :=
  match sGet sub (buildId pfx tagN k) with
  | some nv => some nv
  | none =>
    let stringVal : Option JSValue :=
      match sGet sub (buildId pfx tagS k) with
      | some sv => some sv
      | none =>
        match sGet sub (buildId pfx tagM k) with
        | some (.num n) => some (.str (readChunksFrom pfx k sub 0 n.toNat ""))
        | _ => none
    match stringVal with
    | none => none
    | some sv => if jsTruthy sv then some ((jsonParse (jsToDisplay (some sv))).getD sv) else none

theorem getOp_known (db : DB) (sub : Substrate) (k : String) (hk : validKey k = true)
    (hc : cacheFind db.dataCache k = none) (hkn : db.knownKeys.contains k = true) :
    getOp db sub k = .ok (cacheValue db k (readResult db.pfxBase sub k)) := by
  have hmem : k ∈ db.knownKeys := by
    simpa [List.contains, List.elem_iff] using hkn
  cases hN : sGet sub (buildId db.pfxBase tagN k) with
  | none => simp [getOp, readResult, hk, hc, hkn, hmem, hN]
  | some nv => simp [getOp, readResult, hk, hc, hkn, hmem, hN]

theorem sGet_writeChunksFrom_other (pfx : List Char) (k : String) (chunks : List (List Char)) :
    ∀ (start : Nat) (sub : Substrate) (id : PropId),
      (∀ j, start ≤ j → j < start + chunks.length → id ≠ chunkIdOf pfx k j) →
      sGet (writeChunksFrom pfx k start chunks sub) id = sGet sub id := by
  induction chunks with
  | nil => intro start sub id _; rfl
  | cons c rest ih =>
    intro start sub id hne
    rw [writeChunksFrom, ih (start + 1) _ id
      (fun j h1 h2 => hne j (by omega) (by simp only [List.length_cons]; omega)),
      sGet_sSet_ne _ _ _ _ (hne start le_rfl (by simp only [List.length_cons]; omega))]

theorem sGet_writeChunksFrom_lt (pfx : List Char) (k : String) (chunks : List (List Char)) :
    ∀ (start : Nat) (sub : Substrate) (i : Nat) (h1 : start ≤ i)
      (h2 : i - start < chunks.length),
      sGet (writeChunksFrom pfx k start chunks sub) (chunkIdOf pfx k i) =
        some (.str (String.mk (chunks.get ⟨i - start, h2⟩))) := by
  induction chunks with
  | nil =>
    intro start sub i h1 h2
    simp at h2
  | cons c rest ih =>
    intro start sub i h1 h2
    by_cases hi : i = start
    · subst hi
      rw [writeChunksFrom, sGet_writeChunksFrom_other pfx k rest (i + 1) _ _
        (fun j hj1 _ => fun he => by
          have := chunkIdOf_inj_index pfx k i j he
          omega),
        sGet_sSet_self]
      simp
    · have hgt : start + 1 ≤ i := by omega
      have h3 : i - (start + 1) < rest.length := by
        simp only [List.length_cons] at h2
        omega
      have hget : rest.get ⟨i - (start + 1), h3⟩ = (c :: rest).get ⟨i - start, h2⟩ := by
        rw [show (⟨i - start, h2⟩ : Fin ((c :: rest).length)) =
            (⟨(i - (start + 1)) + 1, by simp only [List.length_cons]; omega⟩ :
              Fin ((c :: rest).length)) from
          Fin.ext (show i - start = i - (start + 1) + 1 by omega)]
        rfl
      rw [writeChunksFrom, ih (start + 1) _ i hgt h3, hget]

theorem strMk_append (a b : List Char) : String.mk a ++ String.mk b = String.mk (a ++ b) := rfl

theorem readChunksFrom_spec (pfx : List Char) (k : String) (sub : Substrate) :
    ∀ (cs : List (List Char)) (i : Nat) (acc : String),
      (∀ j (h : j < cs.length), sGet sub (chunkIdOf pfx k (i + j)) =
        some (.str (String.mk (cs.get ⟨j, h⟩)))) →
      readChunksFrom pfx k sub i cs.length acc = acc ++ String.mk cs.flatten := by
  intro cs
  induction cs with
  | nil =>
    intro i acc _
    show acc = acc ++ String.mk []
    cases acc with
    | mk d => rw [strMk_append, List.append_nil]
  | cons c rest ih =>
    intro i acc hall
    rw [show (c :: rest).length = rest.length + 1 from rfl, readChunksFrom]
    have h0 := hall 0 (by simp)
    simp only [Nat.add_zero] at h0
    have h0c : sGet sub (chunkIdOf pfx k i) = some (.str (String.mk c)) := h0
    rw [h0c, show jsToDisplay (some (.str (String.mk c))) = String.mk c from rfl]
    rw [ih (i + 1) (acc ++ String.mk c) (fun j h => by
      have hj := hall (j + 1) (by simp only [List.length_cons]; omega)
      rw [show i + (j + 1) = (i + 1) + j by omega] at hj
      exact hj)]
    rw [List.flatten_cons, ← strMk_append, ← String.append_assoc]

theorem readResult_native (pfx : List Char) (sub : Substrate) (k : String) (w : JSValue)
    (hN : sGet sub (buildId pfx tagN k) = some w) : readResult pfx sub k = some w := by
  simp [readResult, hN]

theorem readResult_string (pfx : List Char) (sub : Substrate) (k : String) (s : String)
    (hN : sGet sub (buildId pfx tagN k) = none)
    (hS : sGet sub (buildId pfx tagS k) = some (.str s)) :
    readResult pfx sub k =
      if s.data.isEmpty then none else some ((jsonParse s).getD (.str s)) := by
  by_cases he : s.data.isEmpty
  · simp [readResult, hN, hS, jsTruthy, he]
  · simp only [readResult, hN, hS]
    simp [jsTruthy, he, jsToDisplay]

/-- Reading back a key right after a chunked write: the chunks are
concatenated in order and decoded. -/
theorem readResult_after_long_write (pfx : List Char) (k : String) (sub : Substrate)
    (payload : List Char) (hpl : payload ≠ []) :
    readResult pfx
      (writeChunksFrom pfx k 0 (splitIntoChunks MAX_CHUNK_SIZE payload)
        (sSet (deleteKeyChunks pfx sub k) (buildId pfx tagM k)
          (some (.num (splitIntoChunks MAX_CHUNK_SIZE payload).length)))) k =
      some ((jsonParse (String.mk payload)).getD (.str (String.mk payload))) := by
  set chunks := splitIntoChunks MAX_CHUNK_SIZE payload with hchunks
  set base := sSet (deleteKeyChunks pfx sub k) (buildId pfx tagM k)
    (some (.num chunks.length)) with hbase
  set sub2 := writeChunksFrom pfx k 0 chunks base with hsub2
  have hN : sGet sub2 (buildId pfx tagN k) = none := by
    rw [hsub2, sGet_writeChunksFrom_other pfx k chunks 0 base _
      (fun j _ _ he => chunkId_ne_tagN pfx k k j he.symm)]
    rw [hbase, sGet_sSet_ne _ _ _ _ (tagN_ne_tagM pfx k k), deleteKeyChunks_sGet_N]
  have hS : sGet sub2 (buildId pfx tagS k) = none := by
    rw [hsub2, sGet_writeChunksFrom_other pfx k chunks 0 base _
      (fun j _ _ he => chunkId_ne_tagS pfx k k j he.symm)]
    rw [hbase, sGet_sSet_ne _ _ _ _ (tagS_ne_tagM pfx k k), deleteKeyChunks_sGet_S]
  have hM : sGet sub2 (buildId pfx tagM k) = some (.num chunks.length) := by
    rw [hsub2, sGet_writeChunksFrom_other pfx k chunks 0 base _
      (fun j _ _ he => chunkId_ne_tagM pfx k k j he.symm)]
    rw [hbase, sGet_sSet_self]
  have hread : readChunksFrom pfx k sub2 0 chunks.length "" = String.mk payload := by
    have hall : ∀ j (h : j < chunks.length), sGet sub2 (chunkIdOf pfx k (0 + j)) =
        some (.str (String.mk (chunks.get ⟨j, h⟩))) := by
      intro j h
      rw [hsub2]
      have hw := sGet_writeChunksFrom_lt pfx k chunks 0 base (0 + j) (by omega)
        (by simpa using h)
      simpa using hw
    have := readChunksFrom_spec pfx k sub2 chunks 0 "" hall
    rw [this]
    have hflat : chunks.flatten = payload :=
      splitIntoChunks_flatten MAX_CHUNK_SIZE payload (by decide)
    rw [hflat]
    rfl
  have htn : ((chunks.length : Int)).toNat = chunks.length := Int.toNat_ofNat _
  have htruthy : jsTruthy (.str (String.mk payload)) = true := by
    simp [jsTruthy, hpl]
  simp only [readResult, hN, hS, hM, htn, hread, htruthy, if_true, jsToDisplay]

/-! Claim theorems. -/

theorem setOp_ok_shape (db : DB) (sub : Substrate) (k : String) (v : JSValue)
    (hk : validKey k = true) :
    ∃ sub2, setOp db sub k (some v) = .ok (dbAfterSet db k v, sub2) := by
  simp only [setOp, hk, Bool.not_true, Bool.false_eq_true, if_false, dbAfterSet, reduceIte]
  exact ⟨_, rfl⟩

/-- C3: with the cache in its default enabled state, `set(k, v)` followed by
`get(k)` on the same instance returns exactly the value that was set, for
every supported value and valid key: `set` stores the original value in
the cache and `get` serves it from there. -/
theorem C3_set_get_roundtrip_cached (db : DB) (sub : Substrate) (k : String) (v : JSValue)
    (hk : validKey k = true) (hauto : db.autoCache = true) :
    ∃ db2 sub2, setOp db sub k (some v) = .ok (db2, sub2) ∧
      getOp db2 sub2 k = .ok (some v, db2) := by
  obtain ⟨sub2, hset⟩ := setOp_ok_shape db sub k v hk
  refine ⟨dbAfterSet db k v, sub2, hset, ?_⟩
  have hcache : cacheFind (dbAfterSet db k v).dataCache k = some (some v) := by
    simp [dbAfterSet, hauto, cacheFind_cacheSet_self]
  simp [getOp, hk, hcache]

/-- C3 witness: a concrete number round-trips through `set`/`get`. -/
theorem C3_witness :
    ∃ db2 sub2, setOp (initDB "d" []) [] "score" (some (.num 42)) = .ok (db2, sub2) ∧
      getOp db2 sub2 "score" = .ok (some (.num 42), db2) :=
  C3_set_get_roundtrip_cached (initDB "d" []) [] "score" (.num 42) (by decide) rfl

/-- C10: after `set(k, "")`, once the cache entry is evicted, `has(k)` is
true (the key is indexed and the STRING entry exists) while `get(k)`
returns undefined, because the read path treats the empty stored string as
falsy and decodes it to undefined. -/
theorem C10_empty_string_has_true_get_absent (db : DB) (sub : Substrate) (k : String)
    (hk : validKey k = true) :
    ∃ db2 sub2 db3, setOp db sub k (some (.str "")) = .ok (db2, sub2) ∧
      hasOp (unloadOp db2 k) sub2 k = true ∧
      sGet sub2 (buildId db.pfxBase tagS k) = some (.str "") ∧
      getOp (unloadOp db2 k) sub2 k = .ok (none, db3) := by
  have hset := setOp_short_str db sub k "" hk (by decide)
  set db2 := dbAfterSet db k (.str "") with hdb2
  set sub2 := sSet (deleteKeyChunks db.pfxBase sub k) (buildId db.pfxBase tagS k)
    (some (.str "")) with hsub2
  have hc : cacheFind (unloadOp db2 k).dataCache k = none := by
    simp [unloadOp, cacheFind_cacheDel_self]
  have hkn : (unloadOp db2 k).knownKeys.contains k = true := by
    simp [unloadOp, hdb2, dbAfterSet, keysAdd_contains_self, mem_keysAdd_self]
  have hN : sGet sub2 (buildId db.pfxBase tagN k) = none := by
    rw [hsub2, sGet_sSet_ne _ _ _ _ (tagN_ne_tagS db.pfxBase k k), deleteKeyChunks_sGet_N]
  have hS : sGet sub2 (buildId db.pfxBase tagS k) = some (.str "") := by
    rw [hsub2]
    exact sGet_sSet_self _ _ _
  have hrr : readResult db.pfxBase sub2 k = none := by
    rw [readResult_string _ _ _ _ hN hS]
    simp
  have hget : getOp (unloadOp db2 k) sub2 k =
      .ok (cacheValue (unloadOp db2 k) k (readResult db.pfxBase sub2 k)) :=
    getOp_known _ _ _ hk hc hkn
  rw [hrr] at hget
  refine ⟨db2, sub2, (cacheValue (unloadOp db2 k) k none).2, hset, ?_, hS, hget⟩
  simp [hasOp, unloadOp, hdb2, dbAfterSet, keysAdd_contains_self, mem_keysAdd_self]

/-- C10 witness at a concrete key and store. -/
theorem C10_witness :
    ∃ db2 sub2 db3, setOp (initDB "d" []) [] "k" (some (.str "")) = .ok (db2, sub2) ∧
      hasOp (unloadOp db2 "k") sub2 "k" = true ∧
      sGet sub2 (buildId (initDB "d" []).pfxBase tagS "k") = some (.str "") ∧
      getOp (unloadOp db2 "k") sub2 "k" = .ok (none, db3) :=
  C10_empty_string_has_true_get_absent (initDB "d" []) [] "k" (by decide)

/-- C4 counterexample: the stored string `"42"` is valid JSON, so after the
cache entry is evicted `get` returns the number 42, not the string that
was set. -/
theorem C4_counterexample_json_like_string :
    ∃ db2 sub2 db3,
      setOp (initDB "d" []) [] "k" (some (.str "42")) = .ok (db2, sub2) ∧
      getOp (unloadOp db2 "k") sub2 "k" = .ok (some (.num 42), db3) ∧
      JSValue.num 42 ≠ JSValue.str "42" :=
  ⟨_, _, _, rfl, rfl, fun h => JSValue.noConfusion h⟩

/-- Values whose substrate decoding is not ambiguous: every non-string
value, and strings that are neither empty nor accepted by `JSON.parse`
(the full grammar, modelled by `jsonAccepts`). -/
def strDecodeSafe : JSValue → Prop
  | .str s => s ≠ "" ∧ jsonAccepts s = false
  | _ => True

theorem strData_isEmpty_iff (s : String) : s.data.isEmpty = true ↔ s = "" := by
  cases s with
  | mk d =>
    cases d with
    | nil => simp
    | cons c cs =>
      simp only [List.isEmpty_cons, Bool.false_eq_true, false_iff]
      intro h
      have hd := congrArg String.data h
      simp at hd

theorem get_after_unload_of_readResult (db : DB) (sub2 : Substrate) (k : String)
    (v w : JSValue) (hk : validKey k = true)
    (hrr : readResult db.pfxBase sub2 k = some v) :
    getOp (unloadOp (dbAfterSet db k w) k) sub2 k =
      .ok (some v, (cacheValue (unloadOp (dbAfterSet db k w) k) k (some v)).2) := by
  have hc : cacheFind (unloadOp (dbAfterSet db k w) k).dataCache k = none := by
    simp [unloadOp, cacheFind_cacheDel_self]
  have hkn : (unloadOp (dbAfterSet db k w) k).knownKeys.contains k = true := by
    simp [unloadOp, dbAfterSet, keysAdd_contains_self, mem_keysAdd_self]
  have hg := getOp_known (unloadOp (dbAfterSet db k w) k) sub2 k hk hc hkn
  have hpfx : (unloadOp (dbAfterSet db k w) k).pfxBase = db.pfxBase := rfl
  rw [hpfx, hrr] at hg
  exact hg

/-- C4 (amended): after `set(k, v)` followed by `unload(k)` and before any
deletion, `get(k)` returns a value structurally equal to `v` for every
number, boolean, vector and JSON-serializable object, and for every
non-empty string that `JSON.parse` rejects (`jsonAccepts`, the
spec-modelled acceptor for the full JSON grammar, is `false`).  (The
unamended claim fails exactly on the excluded strings: the empty string
reads back as absent, and a JSON-parseable string reads back as its
parse.) -/
theorem C4_roundtrip_after_unload_amended (db : DB) (sub : Substrate) (k : String)
    (v : JSValue) (hk : validKey k = true) (hv : strDecodeSafe v) :
    ∃ db2 sub2 db3, setOp db sub k (some v) = .ok (db2, sub2) ∧
      getOp (unloadOp db2 k) sub2 k = .ok (some v, db3) := by
  rcases v with n | b | s | fs
  · have hset := setOp_num db sub k n hk
    have hrr : readResult db.pfxBase
        (sSet (deleteKeyChunks db.pfxBase sub k) (buildId db.pfxBase tagN k)
          (some (.num n))) k = some (.num n) :=
      readResult_native _ _ _ _ (sGet_sSet_self _ _ _)
    exact ⟨_, _, _, hset, get_after_unload_of_readResult db _ k _ _ hk hrr⟩
  · have hset := setOp_bool db sub k b hk
    have hrr : readResult db.pfxBase
        (sSet (deleteKeyChunks db.pfxBase sub k) (buildId db.pfxBase tagN k)
          (some (.bool b))) k = some (.bool b) :=
      readResult_native _ _ _ _ (sGet_sSet_self _ _ _)
    exact ⟨_, _, _, hset, get_after_unload_of_readResult db _ k _ _ hk hrr⟩
  · obtain ⟨hne, hacc⟩ := hv
    have hparse : jsonParse s = none := jsonParse_eq_none_of_not_accepts s hacc
    by_cases hlen : s.data.length ≤ MAX_CHUNK_SIZE
    · have hset := setOp_short_str db sub k s hk hlen
      have hN : sGet (sSet (deleteKeyChunks db.pfxBase sub k) (buildId db.pfxBase tagS k)
          (some (.str s))) (buildId db.pfxBase tagN k) = none := by
        rw [sGet_sSet_ne _ _ _ _ (tagN_ne_tagS db.pfxBase k k), deleteKeyChunks_sGet_N]
      have hrr : readResult db.pfxBase
          (sSet (deleteKeyChunks db.pfxBase sub k) (buildId db.pfxBase tagS k)
            (some (.str s))) k = some (.str s) := by
        rw [readResult_string _ _ _ _ hN (sGet_sSet_self _ _ _)]
        have hie : s.data.isEmpty = false := by
          rcases h : s.data.isEmpty with _ | _
          · rfl
          · exact absurd ((strData_isEmpty_iff s).mp h) hne
        simp [hie, hparse]
      exact ⟨_, _, _, hset, get_after_unload_of_readResult db _ k _ _ hk hrr⟩
    · push_neg at hlen
      have hset := setOp_long_str db sub k s hk hlen
      have hpl : s.data ≠ [] := by
        intro h
        rw [h] at hlen
        simp [MAX_CHUNK_SIZE] at hlen
      have hrr := readResult_after_long_write db.pfxBase k sub s.data hpl
      have hmk : String.mk s.data = s := rfl
      rw [hmk, hparse] at hrr
      exact ⟨_, _, _, hset, get_after_unload_of_readResult db _ k _ _ hk hrr⟩
  · by_cases hvec : isVector (.obj fs) = true
    · have hset := setOp_vector db sub k (.obj fs) hk hvec
      have hrr : readResult db.pfxBase
          (sSet (deleteKeyChunks db.pfxBase sub k) (buildId db.pfxBase tagN k)
            (some (.obj fs))) k = some (.obj fs) :=
        readResult_native _ _ _ _ (sGet_sSet_self _ _ _)
      exact ⟨_, _, _, hset, get_after_unload_of_readResult db _ k _ _ hk hrr⟩
    · have h : isVector (.obj fs) = false := Bool.eq_false_iff.mpr hvec
      by_cases hlen : (stringifyChars (.obj fs)).length ≤ MAX_CHUNK_SIZE
      · have hset := setOp_obj_short db sub k fs hk h hlen
        have hN : sGet (sSet (deleteKeyChunks db.pfxBase sub k) (buildId db.pfxBase tagS k)
            (some (.str (stringify (.obj fs))))) (buildId db.pfxBase tagN k) = none := by
          rw [sGet_sSet_ne _ _ _ _ (tagN_ne_tagS db.pfxBase k k), deleteKeyChunks_sGet_N]
        have hrr : readResult db.pfxBase
            (sSet (deleteKeyChunks db.pfxBase sub k) (buildId db.pfxBase tagS k)
              (some (.str (stringify (.obj fs))))) k = some (.obj fs) := by
          rw [readResult_string _ _ _ _ hN (sGet_sSet_self _ _ _)]
          have hie : (stringify (.obj fs)).data.isEmpty = false := by
            have := stringifyChars_length_pos (.obj fs)
            rcases he : (stringify (.obj fs)).data.isEmpty with _ | _
            · rfl
            · rw [List.isEmpty_iff] at he
              rw [show (stringify (.obj fs)).data = stringifyChars (.obj fs) from rfl] at he
              rw [he] at this
              simp at this
          simp [hie, jsonParse_stringify]
        exact ⟨_, _, _, hset, get_after_unload_of_readResult db _ k _ _ hk hrr⟩
      · push_neg at hlen
        have hset := setOp_obj_long db sub k fs hk h hlen
        have hpl : stringifyChars (.obj fs) ≠ [] := by
          intro hnil
          have := stringifyChars_length_pos (.obj fs)
          rw [hnil] at this
          simp at this
        have hrr := readResult_after_long_write db.pfxBase k sub (stringifyChars (.obj fs)) hpl
        have hmk : String.mk (stringifyChars (.obj fs)) = stringify (.obj fs) := rfl
        rw [hmk, jsonParse_stringify] at hrr
        exact ⟨_, _, _, hset, get_after_unload_of_readResult db _ k _ _ hk hrr⟩

/-- C4 witness: a concrete non-JSON string round-trips through the
substrate read path after cache eviction. -/
theorem C4_witness :
    ∃ db2 sub2 db3, setOp (initDB "d" []) [] "k" (some (.str "abc")) = .ok (db2, sub2) ∧
      getOp (unloadOp db2 "k") sub2 "k" = .ok (some (.str "abc"), db3) :=
  C4_roundtrip_after_unload_amended (initDB "d" []) [] "k" (.str "abc") (by decide)
    ⟨by decide, rfl⟩

/-- A substrate claiming two chunks for key `k` while holding only chunk 0
(`"abc"`); chunk 1 is missing. -/
def C5sub : Substrate :=
  [(buildId (pfxBaseOf "d") tagM "k", .num 2), (chunkIdOf (pfxBaseOf "d") "k" 0, .str "abc")]

/-- C5, as stated, fails on the code: when a chunk referenced by the
META_CHUNK count is missing, `Database.get` concatenates the JS text
`undefined` into the result (`stringVal += getDynamicProperty(...)`) and
returns the corrupted string `"abcundefined"`, not absence. -/
theorem C5_missing_chunk_corrupted_read :
    ∃ db2, getOp (initDB "d" C5sub) C5sub "k" = .ok (some (.str "abcundefined"), db2) ∧
      some (JSValue.str "abcundefined") ≠ (none : Option JSValue) :=
  ⟨_, rfl, fun h => Option.noConfusion h⟩

/-- C7: instances are interned per (source, id): whenever the registry
already holds an instance for the pair, the constructor returns exactly
that instance and leaves the registry unchanged; and after any successful
construction, every later construction with the same pair (over any
substrate state) returns the same instance and registry. -/
theorem C7_constructor_interns_instances (id : String) (src : SourceId) (reg : Registry)
    (sub : Substrate) (hid : validKey id = true) :
    (∀ db, regFind reg (src, id) = some db → construct id src reg sub = .ok (db, reg)) ∧
    (∀ db1 reg1, construct id src reg sub = .ok (db1, reg1) →
      ∀ sub2, construct id src reg1 sub2 = .ok (db1, reg1)) := by
  constructor
  · intro db h
    simp [construct, hid, h]
  · intro db1 reg1 hcon sub2
    have hcon2 : (match regFind reg (src, id) with
        | some db => (Except.ok (db, reg) : Except String (DB × Registry))
        | none => Except.ok (initDB id sub, ((src, id), initDB id sub) :: reg)) =
          .ok (db1, reg1) := by
      simpa [construct, hid] using hcon
    cases hreg : regFind reg (src, id) with
    | some db =>
      rw [hreg] at hcon2
      simp only [Except.ok.injEq, Prod.mk.injEq] at hcon2
      obtain ⟨h1, h2⟩ := hcon2
      subst h1
      subst h2
      simp [construct, hid, hreg]
    | none =>
      rw [hreg] at hcon2
      simp only [Except.ok.injEq, Prod.mk.injEq] at hcon2
      obtain ⟨h1, h2⟩ := hcon2
      subst h1
      subst h2
      simp [construct, hid, regFind_cons_self]

/-- C7 witness: constructing `"d"` twice over source 0 returns the interned
instance, even when the substrate has changed in between. -/
theorem C7_witness :
    construct "d" 0 [((0, "d"), initDB "d" [])] [(['x'], .num 1)] =
      .ok (initDB "d" [], [((0, "d"), initDB "d" [])]) :=
  (C7_constructor_interns_instances "d" 0 [] [] (by decide)).2 (initDB "d" [])
    [((0, "d"), initDB "d" [])] rfl [(['x'], .num 1)]

theorem sGet_foldl_sDel (L : List PropId) : ∀ (sub : Substrate) (id : PropId),
    sGet (L.foldl sDel sub) id = if id ∈ L then none else sGet sub id := by
  induction L with
  | nil =>
    intro sub id
    simp
  | cons a L2 ih =>
    intro sub id
    rw [List.foldl_cons, ih]
    by_cases hmem : id ∈ L2
    · simp [hmem]
    · by_cases hia : id = a
      · subst hia
        simp [hmem, sGet_sDel_self]
      · simp [hmem, hia, sGet_sDel_ne sub a id hia]

/-- `clear()` removes exactly the entries whose id starts with this
store's full prefix. -/
theorem clearOp_sGet (db : DB) (sub : Substrate) (id : PropId) :
    sGet (clearOp db sub).2 id =
      if db.pfxBase.isPrefixOf id = true then none else sGet sub id := by
  show sGet (((sIds sub).filter (fun i => db.pfxBase.isPrefixOf i)).foldl sDel sub) id = _
  rw [sGet_foldl_sDel]
  by_cases hp : db.pfxBase.isPrefixOf id = true
  · simp only [hp, if_true]
    by_cases hmem : id ∈ (sIds sub).filter (fun i => db.pfxBase.isPrefixOf i)
    · simp [hmem]
    · have hnotin : id ∉ sIds sub := fun hin => hmem (List.mem_filter.mpr ⟨hin, hp⟩)
      simp [hmem, sGet_eq_none_of_not_mem_ids sub id hnotin]
  · have hnm : id ∉ (sIds sub).filter (fun i => db.pfxBase.isPrefixOf i) :=
      fun hin => hp (List.mem_filter.mp hin).2
    simp [hp, hnm]

/-- C6 (amended): `clear()` removes exactly the substrate entries carrying
this store's own prefix; the entries of another store are untouched
provided neither store's full namespace prefix is a prefix of the other's
(distinct database ids alone do not guarantee this, see the
counterexample). -/
theorem C6_clear_scope_amended (d1 : DB) (sub : Substrate) (p2 : List Char)
    (hnp1 : ¬ d1.pfxBase <+: p2) (hnp2 : ¬ p2 <+: d1.pfxBase) :
    (∀ id : PropId, sGet (clearOp d1 sub).2 id =
      if d1.pfxBase.isPrefixOf id = true then none else sGet sub id) ∧
    (∀ id : PropId, p2 <+: id → sGet (clearOp d1 sub).2 id = sGet sub id) := by
  refine ⟨fun id => clearOp_sGet d1 sub id, fun id hpfx => ?_⟩
  rw [clearOp_sGet]
  have hnot : ¬ d1.pfxBase.isPrefixOf id = true := by
    intro hyes
    have h1 : d1.pfxBase <+: id := by
      rw [← List.isPrefixOf_iff_prefix]
      exact hyes
    rcases List.prefix_or_prefix_of_prefix h1 hpfx with h | h
    · exact hnp1 h
    · exact hnp2 h
  simp [hnot]

/-- The other store's only entry, for the C6 counterexample: a STRING
entry of the store with database id `"a_x"`. -/
def C6subX : Substrate := [(buildId (pfxBaseOf "a_x") tagS "k", .str "v")]

/-- C6 counterexample: the stores `"a"` and `"a_x"` have distinct ids, yet
`clear()` on store `"a"` deletes store `"a_x"`'s entry, because that
entry's id starts with store `"a"`'s prefix. -/
theorem C6_counterexample_prefix_extension :
    ("a" : String) ≠ "a_x" ∧
    sGet C6subX (buildId (pfxBaseOf "a_x") tagS "k") = some (.str "v") ∧
    sGet (clearOp (initDB "a" C6subX) C6subX).2 (buildId (pfxBaseOf "a_x") tagS "k") = none :=
  ⟨by decide, rfl, rfl⟩

/-- The sibling store's entry used by the C6 witness. -/
def C6subW : Substrate := [(buildId (pfxBaseOf "b") tagS "k", .str "v")]

/-- C6 witness: with prefix-incomparable ids `"a"` and `"b"`, clearing
store `"a"` leaves store `"b"`'s entry unchanged. -/
theorem C6_witness :
    sGet (clearOp (initDB "a" C6subW) C6subW).2 (buildId (pfxBaseOf "b") tagS "k") =
      sGet C6subW (buildId (pfxBaseOf "b") tagS "k") :=
  (C6_clear_scope_amended (initDB "a" C6subW) C6subW (pfxBaseOf "b") (by decide) (by decide)).2
    (buildId (pfxBaseOf "b") tagS "k") (by decide)

/-- The 70000-character payload of the concrete chunking scenario. -/
def bigA : List Char := List.replicate 70000 'a'

def pfxB : List Char := pfxBaseOf "blobdb"

theorem bigA_length : bigA.length = 70000 := List.length_replicate 70000 'a'

theorem bigA_chunks_length : (splitIntoChunks MAX_CHUNK_SIZE bigA).length = 3 := by
  rw [splitIntoChunks_length MAX_CHUNK_SIZE bigA (by decide), bigA_length]
  norm_num [MAX_CHUNK_SIZE]

theorem deleteKeyChunks_sGet_other (pfx : List Char) (sub : Substrate) (k : String)
    (id : PropId) (h1 : id ≠ buildId pfx tagN k) (h2 : id ≠ buildId pfx tagS k)
    (h3 : id ≠ buildId pfx tagM k) :
    sGet (deleteKeyChunks pfx sub k) id = sGet sub id := by
  rw [deleteKeyChunks_eq, sGet_sDel_ne _ _ _ h3, sGet_sDel_ne _ _ _ h2, sGet_sDel_ne _ _ _ h1]

/-- C8: `_splitIntoChunks` returns, for every input and positive chunk
size, an ordered list of pieces of length at most the chunk size whose
concatenation is exactly the input, with every piece before the last of
full length, and `ceil(length / size)` pieces in total; in particular a
70000-character string splits into 3 chunks of size 32767, and `set` of
such a string writes one META_CHUNK entry with count 3 and data-chunk
entries exactly at indices 0, 1 and 2. -/
theorem C8_splitIntoChunks_spec :
    (∀ (s : List Char) (c : Nat), 0 < c →
      (splitIntoChunks c s).flatten = s ∧
      (∀ ch ∈ splitIntoChunks c s, ch.length ≤ c) ∧
      (∀ ch ∈ (splitIntoChunks c s).dropLast, ch.length = c) ∧
      (splitIntoChunks c s).length = (s.length + c - 1) / c) ∧
    (splitIntoChunks MAX_CHUNK_SIZE bigA).length = 3 ∧
    (∃ db2 sub2,
      setOp (initDB "blobdb" []) [] "blob" (some (.str (String.mk bigA))) = .ok (db2, sub2) ∧
      sGet sub2 (buildId pfxB tagM "blob") = some (.num 3) ∧
      (∀ i : Nat, sGet sub2 (chunkIdOf pfxB "blob" i) ≠ none ↔ i < 3)) := by
  refine ⟨?_, bigA_chunks_length, ?_⟩
  · intro s c hc
    exact ⟨splitIntoChunks_flatten c s (Nat.pos_iff_ne_zero.mp hc),
      splitIntoChunks_mem_length c s (Nat.pos_iff_ne_zero.mp hc),
      splitIntoChunks_dropLast_length c s (Nat.pos_iff_ne_zero.mp hc),
      splitIntoChunks_length c s (Nat.pos_iff_ne_zero.mp hc)⟩
  · have hlen : MAX_CHUNK_SIZE < (String.mk bigA).data.length := by
      show MAX_CHUNK_SIZE < bigA.length
      rw [bigA_length]
      decide
    have hset := setOp_long_str (initDB "blobdb" []) [] "blob" (String.mk bigA)
      (by decide) hlen
    rw [show (initDB "blobdb" []).pfxBase = pfxB from rfl] at hset
    refine ⟨_, _, hset, ?_, ?_⟩
    · rw [show (String.mk bigA).data = bigA from rfl,
        sGet_writeChunksFrom_other pfxB "blob" _ 0 _ _
          (fun j _ _ he => chunkId_ne_tagM pfxB "blob" "blob" j he.symm),
        sGet_sSet_self, bigA_chunks_length]
      norm_num
    · intro i
      constructor
      · intro hne
        by_contra hge
        push_neg at hge
        rw [show (String.mk bigA).data = bigA from rfl,
          sGet_writeChunksFrom_other pfxB "blob" _ 0 _ _
            (fun j _ hj he => by
              rw [bigA_chunks_length] at hj
              have := chunkIdOf_inj_index pfxB "blob" i j he
              omega),
          sGet_sSet_ne _ _ _ _ (fun he => chunkId_ne_tagM pfxB "blob" "blob" i he)] at hne
        exact hne rfl
      · intro hlt
        rw [show (String.mk bigA).data = bigA from rfl,
          sGet_writeChunksFrom_lt pfxB "blob" _ 0 _ i (by omega)
            (by rw [bigA_chunks_length]; omega)]
        exact fun h => Option.noConfusion h

/-- C8 witness: the general chunking facts instantiated at the string
`"abcde"` with chunk size 2. -/
theorem C8_witness :
    (splitIntoChunks 2 "abcde".data).flatten = "abcde".data ∧
    (∀ ch ∈ splitIntoChunks 2 "abcde".data, ch.length ≤ 2) ∧
    (∀ ch ∈ (splitIntoChunks 2 "abcde".data).dropLast, ch.length = 2) ∧
    (splitIntoChunks 2 "abcde".data).length = ("abcde".data.length + 2 - 1) / 2 :=
  C8_splitIntoChunks_spec.1 "abcde".data 2 (by decide)

/-- C1, decided against the spec: `_deleteKeyChunks` reads the chunk count
from the META_CHUNK entry after having deleted it, so the DATA_CHUNK
entries of a previously chunked key are never erased.  Setting `"blob"` to
a 70000-character string (3 chunks) and then to the short string `"x"`
leaves data chunk 0 in the substrate alongside the new STRING entry. -/
theorem C1_set_leaves_residual_chunks :
    ∃ db2 sub2 db3 sub3,
      setOp (initDB "blobdb" []) [] "blob" (some (.str (String.mk bigA))) = .ok (db2, sub2) ∧
      setOp db2 sub2 "blob" (some (.str "x")) = .ok (db3, sub3) ∧
      sGet sub3 (buildId pfxB tagS "blob") = some (.str "x") ∧
      sGet sub3 (buildId pfxB tagM "blob") = none ∧
      sGet sub3 (chunkIdOf pfxB "blob" 0) ≠ none := by
  have hlen : MAX_CHUNK_SIZE < (String.mk bigA).data.length := by
    show MAX_CHUNK_SIZE < bigA.length
    rw [bigA_length]
    decide
  have hset1 := setOp_long_str (initDB "blobdb" []) [] "blob" (String.mk bigA)
    (by decide) hlen
  set db2 := dbAfterSet (initDB "blobdb" []) "blob" (.str (String.mk bigA)) with hdb2
  set sub2 := writeChunksFrom pfxB "blob" 0 (splitIntoChunks MAX_CHUNK_SIZE bigA)
    (sSet (deleteKeyChunks pfxB [] "blob") (buildId pfxB tagM "blob")
      (some (.num (splitIntoChunks MAX_CHUNK_SIZE bigA).length))) with hsub2
  have hset2 := setOp_short_str db2 sub2 "blob" "x" (by decide) (by decide)
  have hpfx2 : db2.pfxBase = pfxB := rfl
  rw [hpfx2] at hset2
  refine ⟨db2, sub2, _, _, hset1, hset2, sGet_sSet_self _ _ _, ?_, ?_⟩
  · rw [sGet_sSet_ne _ _ _ _ (fun he => tagS_ne_tagM pfxB "blob" "blob" he.symm),
      deleteKeyChunks_sGet_M]
  · rw [sGet_sSet_ne _ _ _ _ (chunkId_ne_tagS pfxB "blob" "blob" 0),
      deleteKeyChunks_sGet_other pfxB sub2 "blob" _
        (chunkId_ne_tagN pfxB "blob" "blob" 0) (chunkId_ne_tagS pfxB "blob" "blob" 0)
        (chunkId_ne_tagM pfxB "blob" "blob" 0),
      hsub2, sGet_writeChunksFrom_lt pfxB "blob" _ 0 _ 0 (by omega)
        (by rw [bigA_chunks_length]; omega)]
    exact fun h => Option.noConfusion h

theorem keysDel_contains_self_false (ks : List String) (k : String) :
    (keysDel ks k).contains k = false := by
  rcases h : (keysDel ks k).contains k with _ | _
  · rfl
  · exact absurd (by simpa [List.contains, List.elem_iff] using h) (keysDel_not_mem ks k)

theorem deleteOp_ok (db : DB) (sub : Substrate) (k : String) (hk : validKey k = true) :
    deleteOp db sub k = .ok (hasOp db sub k,
      { db with dataCache := cacheDel db.dataCache k, knownKeys := keysDel db.knownKeys k },
      deleteKeyChunks db.pfxBase sub k) := by
  simp [deleteOp, hk]

/-- C2, decided against the spec: `delete` on a previously chunked key does
remove the META_CHUNK entry (and `has` is false on the same instance), but
the DATA_CHUNK entries survive, because `_deleteKeyChunks` reads the chunk
count only after deleting the META_CHUNK entry; a fresh instance whose
index is rebuilt by the startup prefix scan re-indexes the key from the
orphaned data chunks and reports `has` true. -/
theorem C2_delete_leaves_chunks_fresh_has_true :
    ∃ db2 sub2 existed db3 sub3,
      setOp (initDB "blobdb" []) [] "blob" (some (.str (String.mk bigA))) = .ok (db2, sub2) ∧
      deleteOp db2 sub2 "blob" = .ok (existed, db3, sub3) ∧
      sGet sub3 (buildId pfxB tagM "blob") = none ∧
      sGet sub3 (chunkIdOf pfxB "blob" 0) ≠ none ∧
      hasOp db3 sub3 "blob" = false ∧
      hasOp (initDB "blobdb" sub3) sub3 "blob" = true := by
  have hlen : MAX_CHUNK_SIZE < (String.mk bigA).data.length := by
    show MAX_CHUNK_SIZE < bigA.length
    rw [bigA_length]
    decide
  have hset1 := setOp_long_str (initDB "blobdb" []) [] "blob" (String.mk bigA)
    (by decide) hlen
  rw [show (initDB "blobdb" []).pfxBase = pfxB from rfl] at hset1
  obtain ⟨c0, c1, c2, hch⟩ := List.length_eq_three.mp bigA_chunks_length
  have hch2 : splitIntoChunks MAX_CHUNK_SIZE (String.mk bigA).data = [c0, c1, c2] := hch
  rw [hch2] at hset1
  set db2 := dbAfterSet (initDB "blobdb" []) "blob" (.str (String.mk bigA)) with hdb2
  set sub2 := writeChunksFrom pfxB "blob" 0 [c0, c1, c2]
    (sSet (deleteKeyChunks pfxB [] "blob") (buildId pfxB tagM "blob")
      (some (.num ([c0, c1, c2] : List (List Char)).length))) with hsub2
  have hdel := deleteOp_ok db2 sub2 "blob" (by decide)
  rw [show db2.pfxBase = pfxB from rfl] at hdel
  refine ⟨db2, sub2, _, _, _, hset1, hdel, deleteKeyChunks_sGet_M pfxB sub2 "blob",
    ?_, ?_, ?_⟩
  · rw [deleteKeyChunks_sGet_other pfxB sub2 "blob" _
      (chunkId_ne_tagN pfxB "blob" "blob" 0) (chunkId_ne_tagS pfxB "blob" "blob" 0)
      (chunkId_ne_tagM pfxB "blob" "blob" 0),
      hsub2, sGet_writeChunksFrom_lt pfxB "blob" _ 0 _ 0 (by omega) (by simp)]
    exact fun h => Option.noConfusion h
  · have hck : checkKeyExists pfxB (deleteKeyChunks pfxB sub2 "blob") "blob" = false := by
      simp [checkKeyExists, deleteKeyChunks_sGet_N, deleteKeyChunks_sGet_S,
        deleteKeyChunks_sGet_M]
    simp [hasOp, cacheFind_cacheDel_self, keysDel_contains_self_false, hck,
      keysDel_not_mem]
  · rfl

theorem writeChunksIdx_eq (pfx : List Char) (k : String) (s : List Char) :
    ∀ (cnt i : Nat) (sub : Substrate),
      writeChunksIdx pfx k s i cnt sub =
        writeChunksFrom pfx k i ((List.range' i cnt).map (chunkAt MAX_CHUNK_SIZE s)) sub := by
  intro cnt
  induction cnt with
  | zero =>
    intro i sub
    rfl
  | succ m ih =>
    intro i sub
    rw [writeChunksIdx, List.range'_succ, List.map_cons, writeChunksFrom, ih]

theorem isLongStr_payload (w : JSValue) (h : isLongStr w = true) :
    MAX_CHUNK_SIZE < (payloadOf w).length := by
  match w with
  | .str s => simpa [isLongStr, payloadOf] using h
  | .num n => simp [isLongStr] at h
  | .bool b => simp [isLongStr] at h
  | .obj fs => simp [isLongStr] at h

/-- The chunk-index loop of part_001's `set` writes exactly the chunk list
that part_000's `_splitIntoChunks` produces, with the same count. -/
theorem chunkWrite_eq (pfx : List Char) (k : String) (payload : List Char) (X : Substrate) :
    writeChunksFrom pfx k 0 (splitIntoChunks MAX_CHUNK_SIZE payload)
      (sSet X (buildId pfx tagM k)
        (some (.num (splitIntoChunks MAX_CHUNK_SIZE payload).length))) =
    writeChunksIdx pfx k payload 0 ((payload.length + MAX_CHUNK_SIZE - 1) / MAX_CHUNK_SIZE)
      (sSet X (buildId pfx tagM k)
        (some (.num (((payload.length + MAX_CHUNK_SIZE - 1) / MAX_CHUNK_SIZE : Nat) : Int)))) := by
  rw [writeChunksIdx_eq, ← List.range_eq_range',
    ← splitIntoChunks_eq_map_range MAX_CHUNK_SIZE payload (by decide),
    splitIntoChunks_length MAX_CHUNK_SIZE payload (by decide)]

theorem setOp1_long_str (db : DB) (sub : Substrate) (k : String) (s : String)
    (hlen : MAX_CHUNK_SIZE < s.data.length) :
    setOp1 db sub k (some (.str s)) = (dbAfterSet db k (.str s),
      writeChunksIdx db.pfxBase k s.data 0
        ((s.data.length + MAX_CHUNK_SIZE - 1) / MAX_CHUNK_SIZE)
        (sSet (deleteKeyChunks db.pfxBase sub k) (buildId db.pfxBase tagM k)
          (some (.num (((s.data.length + MAX_CHUNK_SIZE - 1) / MAX_CHUNK_SIZE : Nat) :
            Int))))) := by
  have hlong : isLongStr (.str s) = true := by
    simp only [isLongStr, decide_eq_true_eq]
    exact hlen
  simp [setOp1, dbAfterSet, isObjLike, isVector, hlong, payloadOf]

theorem setOp1_obj_long (db : DB) (sub : Substrate) (k : String)
    (fs : List (String × JSValue)) (hnv : isVector (.obj fs) = false)
    (hlen : MAX_CHUNK_SIZE < (stringifyChars (.obj fs)).length) :
    setOp1 db sub k (some (.obj fs)) = (dbAfterSet db k (.obj fs),
      writeChunksIdx db.pfxBase k (stringifyChars (.obj fs)) 0
        (((stringifyChars (.obj fs)).length + MAX_CHUNK_SIZE - 1) / MAX_CHUNK_SIZE)
        (sSet (deleteKeyChunks db.pfxBase sub k) (buildId db.pfxBase tagM k)
          (some (.num ((((stringifyChars (.obj fs)).length + MAX_CHUNK_SIZE - 1) /
            MAX_CHUNK_SIZE : Nat) : Int))))) := by
  have hlong : isLongStr (.str (stringify (.obj fs))) = true := by
    simp only [isLongStr, decide_eq_true_eq]
    exact hlen
  have hlong2 : isLongStr (.str (String.mk (stringifyChars (.obj fs)))) = true := hlong
  simp [setOp1, dbAfterSet, isObjLike, hnv, hlong, hlong2, payloadOf, stringify]

/-- The `set` of part_000 and the `set` of the first part_001 copy agree on
every valid key: the accumulating splitter and the ceil-count index loop
write the same chunks, and the other branches are textually identical. -/
theorem setOp1_eq_setOp (db : DB) (sub : Substrate) (k : String) (v : Option JSValue)
    (hk : validKey k = true) :
    setOp db sub k v = .ok (setOp1 db sub k v) := by
  cases v with
  | none => simp [setOp, setOp1, hk]
  | some w =>
    rcases w with n | b | s | fs
    · simp [setOp, setOp1, hk, isObjLike, isVector, isLongStr, isStrVal]
    · simp [setOp, setOp1, hk, isObjLike, isVector, isLongStr, isStrVal]
    · by_cases hlen : s.data.length ≤ MAX_CHUNK_SIZE
      · have hlong : isLongStr (.str s) = false := by
          simp only [isLongStr, decide_eq_false_iff_not, Nat.not_lt]
          exact hlen
        simp [setOp, setOp1, hk, isObjLike, isVector, hlong, isStrVal]
      · push_neg at hlen
        rw [setOp_long_str db sub k s hk hlen, setOp1_long_str db sub k s hlen,
          chunkWrite_eq]
    · by_cases hvec : isVector (.obj fs) = true
      · simp [setOp, setOp1, hk, isObjLike, hvec, isLongStr]
      · have hv : isVector (.obj fs) = false := Bool.eq_false_iff.mpr hvec
        by_cases hlen : (stringify (.obj fs)).data.length ≤ MAX_CHUNK_SIZE
        · have hlong : isLongStr (.str (stringify (.obj fs))) = false := by
            simp only [isLongStr, decide_eq_false_iff_not, Nat.not_lt]
            exact hlen
          simp [setOp, setOp1, hk, isObjLike, hv, hlong, isStrVal]
        · push_neg at hlen
          have hlen2 : MAX_CHUNK_SIZE < (stringifyChars (.obj fs)).length := hlen
          rw [setOp_obj_long db sub k fs hk hv hlen2, setOp1_obj_long db sub k fs hv hlen2,
            chunkWrite_eq]

/-- part_000's `get` and the first part_001 copy's `get` agree on valid
keys (the bodies are textually identical after the validation check). -/
theorem getOp1_eq_getOp (db : DB) (sub : Substrate) (k : String) (hk : validKey k = true) :
    getOp db sub k = .ok (getOp1 db sub k) := by
  cases hcf : cacheFind db.dataCache k with
  | some v => simp [getOp, getOp1, hk, hcf]
  | none =>
    by_cases hkn : (db.knownKeys.contains k || checkKeyExists db.pfxBase sub k) = true
    · cases hN : sGet sub (buildId db.pfxBase tagN k) with
      | some nv =>
        simp [getOp, getOp1, hk, hcf, hkn, hN]
        try (split <;> rfl)
      | none =>
        simp [getOp, getOp1, hk, hcf, hkn, hN]
        try (split <;> rfl)
    · have hkn2 : (db.knownKeys.contains k || checkKeyExists db.pfxBase sub k) = false :=
        Bool.eq_false_iff.mpr hkn
      rcases Bool.or_eq_false_iff.mp hkn2 with ⟨h1, h2⟩
      have hnm : k ∉ db.knownKeys := fun hm => by
        rw [show db.knownKeys.contains k = db.knownKeys.elem k from rfl,
          List.elem_iff.mpr hm] at h1
        cases h1
      simp [getOp, getOp1, hk, hcf, hkn2, hnm, h2]

/-- part_000's `delete` and the first part_001 copy's `delete` agree on
valid keys. -/
theorem deleteOp1_eq_deleteOp (db : DB) (sub : Substrate) (k : String)
    (hk : validKey k = true) :
    deleteOp db sub k = .ok (deleteOp1 db sub k) := by
  simp [deleteOp, deleteOp1, hk]

/-- The part_000 constructor and the first part_001 copy's constructor
agree on valid database ids. -/
theorem construct1_eq_construct (id : String) (src : SourceId) (reg : Registry)
    (sub : Substrate) (hid : validKey id = true) :
    construct id src reg sub = .ok (construct1 id src reg sub) := by
  cases hreg : regFind reg (src, id) with
  | some db => simp [construct, construct1, hid, hreg]
  | none => simp [construct, construct1, hid, hreg]

/-- C9 (amended): the part_000 `Database` and the first part_001 copy
agree, operation by operation, on every valid input (non-blank string keys
and ids): `set` produces the same instance state and the same substrate
(the two chunk loops write identical entries), and `get`, `delete` and the
constructor are equal outright.  They differ only on invalid inputs, where
part_000 throws and the part_001 copy proceeds (see the counterexample). -/
theorem C9_copies_agree_on_valid_inputs (db : DB) (sub : Substrate) (k id : String)
    (v : Option JSValue) (src : SourceId) (reg : Registry) (sub2 : Substrate)
    (hk : validKey k = true) (hid : validKey id = true) :
    setOp db sub k v = .ok (setOp1 db sub k v) ∧
    getOp db sub k = .ok (getOp1 db sub k) ∧
    deleteOp db sub k = .ok (deleteOp1 db sub k) ∧
    construct id src reg sub2 = .ok (construct1 id src reg sub2) :=
  ⟨setOp1_eq_setOp db sub k v hk, getOp1_eq_getOp db sub k hk,
    deleteOp1_eq_deleteOp db sub k hk, construct1_eq_construct id src reg sub2 hid⟩

/-- C9 counterexample: on the empty key the two copies disagree — part_000
`set` throws, while the part_001 copy performs the write and stores a
NATIVE entry under the empty key. -/
theorem C9_counterexample_empty_key :
    setOp (initDB "d" []) [] "" (some (.num 1)) = .error "Key must be a non-empty string" ∧
    (setOp1 (initDB "d" []) [] "" (some (.num 1))).2 =
      [(buildId (pfxBaseOf "d") tagN "", JSValue.num 1)] :=
  ⟨rfl, rfl⟩

/-- C9 witness: the agreement theorem applied to a concrete store, key and
value. -/
theorem C9_witness :
    setOp (initDB "d" []) [] "k" (some (.num 1)) = .ok (setOp1 (initDB "d" []) [] "k" (some (.num 1))) ∧
    getOp (initDB "d" []) [] "k" = .ok (getOp1 (initDB "d" []) [] "k") ∧
    deleteOp (initDB "d" []) [] "k" = .ok (deleteOp1 (initDB "d" []) [] "k") ∧
    construct "d" 0 [] [] = .ok (construct1 "d" 0 [] []) :=
  C9_copies_agree_on_valid_inputs (initDB "d" []) [] "k" "d" (some (.num 1)) 0 [] []
    (by decide) (by decide)

end StorageDB
